import Mathlib

/-! Demand-planning dashboard: chart decimation, pivot table and monthly roll-up.

A shallow embedding of the algorithmic parts of `src/ui/app.js`
(`renderChart`, `renderTable`, `filterTable`, `updateTableBucket`) and the
properties the specification states about them.

Conventions of the embedding.

* A JavaScript number is a rational (`ℚ`); `NaN` and the infinities are not
  numbers of the embedding. The selection of `renderChart` is in the exact
  arithmetic the specification words it in; the sums of the monthly roll-up are
  rounded to doubles by a `Rounding`.
* A JavaScript string is the list of its UTF-16 code units, each written as a
  `Char` (strings of the Basic Multilingual Plane).
* A JavaScript array is a `List`.
* A plain object used as a dictionary (`{}`) is an association list of its own
  properties in insertion order, together with the names it inherits from
  `Object.prototype`, which a property read also finds.
-/

namespace AgenticDemandPlanning

/-! ## Chart decimation (`renderChart`, lines 31-68) -/

/-- Value of `Math.min(...xs)` for a non-empty array (the call is only made
with more than 20 elements; the head default is never used there). -/
def mathMin (xs : List ℚ) : ℚ :=
  xs.foldl min (xs.headD 0)

/-- Value of `Math.max(...xs)` for a non-empty array. -/
def mathMax (xs : List ℚ) : ℚ :=
  xs.foldl max (xs.headD 0)

/-- The reduction `dataPoints.reduce((a, b) => a + b, 0)`. -/
def sumReduce (xs : List ℚ) : ℚ :=
  xs.foldl (fun a b => a + b) 0

/-- The quotient `sum / dataPoints.length`. -/
def average (xs : List ℚ) : ℚ :=
  sumReduce xs / (xs.length : ℚ)

/-- One step of the callback of line 60: keep `prev` unless `curr` is strictly
closer to `avgVal`. -/
def closerStep (avgVal : ℚ) (prev curr : ℚ) : ℚ :=
  if |curr - avgVal| < |prev - avgVal| then curr else prev

/-- The reduction of line 60, without initial value: the accumulator starts at
the first element and the scan runs over the rest (an empty array makes
`reduce` throw; the call is only made with more than 20 elements). -/
def closestAvg (avgVal : ℚ) : List ℚ → ℚ
  | [] => 0
  | x :: rest => rest.foldl (closerStep avgVal) x

/-- Index of the first element equal to `v` (`Array.prototype.indexOf`), as a
position from the front. `indexOf` answers `-1` for a value that is absent; the
three values searched on lines 56-61 are elements of the array (`keyIndices_lt`),
so that answer does not arise. -/
def indexOf (xs : List ℚ) (v : ℚ) : Nat :=
  xs.indexOf v

/-- Insertion-ordered de-duplication, the iteration order of `new Set(xs)`:
every element is kept at its first occurrence. -/
def setOf {α : Type} [DecidableEq α] : List α → List α
  | [] => []
  | x :: xs => x :: (setOf xs).filter (fun y => decide (y ≠ x))

/-- The three indices pushed on lines 54-61, in push order. -/
def keyIndices (dataPoints : List ℚ) : List Nat :=
  [ indexOf dataPoints (mathMin dataPoints),
    indexOf dataPoints (mathMax dataPoints),
    indexOf dataPoints (closestAvg (average dataPoints) dataPoints) ]

/-- Line 64: `[...new Set(indices)].sort((a, b) => a - b)`. -/
def uniqueIndices (dataPoints : List ℚ) : List Nat :=
  (setOf (keyIndices dataPoints)).insertionSort (fun a b => a ≤ b)

/-- The pair `(finalLabels, finalData)` that `renderChart` hands to the chart
(lines 35-68). `labels[i]` beyond the end of `labels` is `undefined`, the
default of the label type. -/
def renderChart {L : Type} [Inhabited L] (type : String) (labels : List L)
    (dataPoints : List ℚ) : List L × List ℚ :=
  if type = "line" ∧ dataPoints.length > 20 then
    ((uniqueIndices dataPoints).map (fun i => labels.getD i default),
     (uniqueIndices dataPoints).map (fun i => dataPoints.getD i 0))
  else
    (labels, dataPoints)

/-- The 25-point ramp of the specification: `values[i] = 100 + 100 * i / 3`. -/
def ramp : List ℚ :=
  (List.range 25).map (fun (i : Nat) => 100 + 100 * (i : ℚ) / 3)

/-- Position `i` holds `v` and no earlier position does. -/
def IsFirstIndexOf (xs : List ℚ) (v : ℚ) (i : Nat) : Prop :=
  xs[i]? = some v ∧ ∀ j, j < i → xs[j]? ≠ some v

/-- Position `i` holds a value at the smallest absolute distance to `avg`, and every
earlier position is strictly farther from `avg`. -/
def IsFirstClosest (avg : ℚ) (xs : List ℚ) (i : Nat) : Prop :=
  ∃ v, xs[i]? = some v ∧ (∀ y ∈ xs, |v - avg| ≤ |y - avg|) ∧
    ∀ j w, j < i → xs[j]? = some w → |v - avg| < |w - avg|

/-! ## Records and plain objects -/

/-- A JavaScript string: its UTF-16 code units in order. -/
abbrev JSString := List Char

/-- A value of a metric field of a record as `JSON.parse` can deliver it:
`null`, a missing field (`undefined`), a number, or any other value (a boolean, a
string, an array, an object). Such a value is given by what `Number(v)` and
`parseFloat(v)` make of it, `none` standing for `NaN`: `true` is `other (some 1) none`,
the string `"5"` is `other (some 5) (some 5)`, the string `"n/a"` is `other none none`. -/
inductive JSValue where
  | null
  | undefined
  | num (q : ℚ)
  | other (asNumber asFloat : Option ℚ)
  deriving DecidableEq

/-- A flat input row (section 3 of the specification). -/
structure Record where
  SKU : JSString
  Date : JSString
  Baseline_P50 : JSValue
  Plan : JSValue
  Constrained_Plan : JSValue
  Upside : JSValue
  deriving DecidableEq

/-- The names every plain object inherits from `Object.prototype`. Each of them
reads as a truthy value (a function, or `Object.prototype` itself for
`__proto__`) on an object that has no own property of that name. -/
def objectPrototypeProps : List JSString :=
  [ "constructor".toList, "__defineGetter__".toList, "__defineSetter__".toList,
    "hasOwnProperty".toList, "__lookupGetter__".toList, "__lookupSetter__".toList,
    "isPrototypeOf".toList, "propertyIsEnumerable".toList, "toString".toList,
    "valueOf".toList, "__proto__".toList, "toLocaleString".toList ]

/-- Own-property test on an insertion-ordered property list. -/
def hasOwn {β : Type} : List (JSString × β) → JSString → Bool
  | [], _ => false
  | p :: rest, key => decide (p.1 = key) || hasOwn rest key

/-- Update of the own property `key` in place (its position is kept). -/
def modifyOwn {β : Type} (obj : List (JSString × β)) (key : JSString) (f : β → β) :
    List (JSString × β) :=
  obj.map (fun p => if p.1 = key then (p.1, f p.2) else p)

/-! ## Monthly roll-up (`updateTableBucket`, lines 196-232) -/

/-- The expression `Number(v) || 0`: `null`, `undefined`, a value that converts to
`NaN`, and `0` itself all give `0`; any other value gives what `Number` makes of it. -/
def numberOrZero : JSValue → ℚ
  | JSValue.num q => q
  | JSValue.other (some q) _ => q
  | _ => 0

/-- Rounding of the exact result of an addition to a double. The metrics of a group
are doubles, and each `+=` of lines 224-227 rounds: `fl` is that rounding, which
leaves a double as it is and is exact on the integers up to `2^53` in magnitude. -/
structure Rounding where
  fl : ℚ → ℚ
  fl_idem : ∀ x : ℚ, fl (fl x) = fl x
  fl_int : ∀ n : ℤ, |n| ≤ 2 ^ 53 → fl (n : ℚ) = (n : ℚ)

/-- Arithmetic without rounding. -/
def Rounding.exact : Rounding :=
  { fl := fun x => x, fl_idem := fun _ => rfl, fl_int := fun _ _ => rfl }

/-- A group object of lines 213-220; its four metric fields are numbers from creation on. -/
structure Group where
  Date : JSString
  SKU : JSString
  Baseline_P50 : ℚ
  Plan : ℚ
  Constrained_Plan : ℚ
  Upside : ℚ
  deriving DecidableEq

/-- Rounding of a rational to the nearest integer, a tie going to the even one. -/
def roundHalfEven (x : ℚ) : ℤ :=
  if x - ⌊x⌋ < 1 / 2 then ⌊x⌋
  else if 1 / 2 < x - ⌊x⌋ then ⌊x⌋ + 1
  else if ⌊x⌋ % 2 = 0 then ⌊x⌋ else ⌊x⌋ + 1

/-- Rounding to the nearest number with 53 significant bits, ties to even: the
rounding of IEEE 754 doubles between the smallest normal number and the largest
finite one (the exponent is not bounded here). -/
def binary64 (x : ℚ) : ℚ :=
  if x = 0 then 0
  else (roundHalfEven (x / 2 ^ (Int.log 2 |x| - 52)) : ℚ) * 2 ^ (Int.log 2 |x| - 52)

/-- Double arithmetic: `binary64` leaves a number with at most 53 significant bits
as it is, in particular its own results and the integers up to `2^53`. -/
def Rounding.binary64 : Rounding :=
  have hcast : ∀ k : ℤ, roundHalfEven (k : ℚ) = k := by
    intro k
    unfold roundHalfEven
    simp
  have hbounds : ∀ t : ℚ, ⌊t⌋ ≤ roundHalfEven t ∧ roundHalfEven t ≤ ⌊t⌋ + 1 := by
    intro t
    unfold roundHalfEven
    split
    · constructor <;> omega
    · split
      · constructor <;> omega
      · split
        · constructor <;> omega
        · constructor <;> omega
  have hscaled : ∀ x : ℚ, x ≠ 0 → ∀ k : ℤ,
      x / 2 ^ (Int.log 2 |x| - 52) = (k : ℚ) → AgenticDemandPlanning.binary64 x = x := by
    intro x hx k h
    unfold AgenticDemandPlanning.binary64
    rw [if_neg hx, h, hcast, ← h]
    have : (2 : ℚ) ^ (Int.log 2 |x| - 52) ≠ 0 := zpow_ne_zero _ (by norm_num)
    field_simp
  have hrep : ∀ k j : ℤ, |k| ≤ 2 ^ 53 →
      AgenticDemandPlanning.binary64 ((k : ℚ) * 2 ^ j) = (k : ℚ) * 2 ^ j := by
    intro k j hk
    by_cases hk0 : k = 0
    · subst hk0; simp [AgenticDemandPlanning.binary64]
    have h2 : (2 : ℚ) ^ j ≠ 0 := zpow_ne_zero _ (by norm_num)
    have h2pos : (0 : ℚ) < 2 ^ j := zpow_pos (by norm_num) _
    have hx : (k : ℚ) * 2 ^ j ≠ 0 := mul_ne_zero (by exact_mod_cast hk0) h2
    have habs : |(k : ℚ) * 2 ^ j| = |(k : ℚ)| * 2 ^ j := by
      rw [abs_mul, abs_of_pos h2pos]
    have hpos : 0 < |(k : ℚ) * 2 ^ j| := abs_pos.2 hx
    have hkq : |(k : ℚ)| ≤ 2 ^ 53 := by exact_mod_cast hk
    -- the exponent is at most j + 1
    have hlog : Int.log 2 |(k : ℚ) * 2 ^ j| < 54 + j := by
      rw [← Int.lt_zpow_iff_log_lt (by norm_num) hpos, habs]
      have : (2 : ℚ) ^ (54 + j) = 2 ^ 54 * 2 ^ j := by
        rw [zpow_add₀ (by norm_num)]; norm_num
      push_cast
      rw [this]
      have : |(k : ℚ)| < 2 ^ 54 := lt_of_le_of_lt hkq (by norm_num)
      exact mul_lt_mul_of_pos_right this h2pos
    by_cases he : Int.log 2 |(k : ℚ) * 2 ^ j| - 52 ≤ j
    · -- the scaled value is k * 2 ^ (j - e), an integer
      obtain ⟨d, hd⟩ := Int.eq_ofNat_of_zero_le (sub_nonneg.2 he)
      apply hscaled _ hx (k * 2 ^ d)
      have e1 : (2 : ℚ) ^ j = 2 ^ (Int.log 2 |(k : ℚ) * 2 ^ j| - 52) * 2 ^ (d : ℤ) := by
        rw [← zpow_add₀ (by norm_num), ← hd]; congr 1; ring
      have h3 : (2 : ℚ) ^ (Int.log 2 |(k : ℚ) * 2 ^ j| - 52) ≠ 0 := zpow_ne_zero _ (by norm_num)
      generalize Int.log 2 |(k : ℚ) * 2 ^ j| - 52 = E at hd e1 h3 ⊢
      rw [e1]
      push_cast
      field_simp
      ring
    · -- the exponent is j + 1 and |k| = 2 ^ 53
      have hlogeq : Int.log 2 |(k : ℚ) * 2 ^ j| = 53 + j := by omega
      have hle := Int.zpow_log_le_self (b := 2) (by norm_num) hpos
      rw [hlogeq, habs] at hle
      have e53 : ((2 : ℕ) : ℚ) ^ (53 + j) = 2 ^ 53 * 2 ^ j := by
        push_cast
        rw [zpow_add₀ (by norm_num)]; norm_num
      rw [e53] at hle
      have hge : (2 : ℚ) ^ 53 ≤ |(k : ℚ)| := le_of_mul_le_mul_right hle h2pos
      have hkabs : |(k : ℚ)| = 2 ^ 53 := le_antisymm hkq hge
      have hkabsZ : |k| = 2 ^ 53 := by exact_mod_cast hkabs
      have hcases : k = 2 ^ 53 ∨ k = -2 ^ 53 := by
        rcases abs_cases k with ⟨h, -⟩ | ⟨h, -⟩
        · left; rw [← h]; exact hkabsZ
        · right; rw [← hkabsZ, h]; ring
      have hexp : Int.log 2 |(k : ℚ) * 2 ^ j| - 52 = j + 1 := by omega
      have e2 : (2 : ℚ) ^ (j + 1) = 2 ^ j * 2 := by
        rw [zpow_add₀ (by norm_num)]; norm_num
      rcases hcases with hk2 | hk2
      · apply hscaled _ hx (2 ^ 52)
        rw [hexp, e2, hk2]
        push_cast
        field_simp
        ring
      · apply hscaled _ hx (-2 ^ 52)
        rw [hexp, e2, hk2]
        push_cast
        field_simp
        ring
  { fl := AgenticDemandPlanning.binary64
    fl_idem := by
      intro x
      by_cases hx : x = 0
      · subst hx; simp [AgenticDemandPlanning.binary64]
      have hpos : 0 < |x| := abs_pos.2 hx
      have h2pos : (0 : ℚ) < 2 ^ (Int.log 2 |x| - 52) := zpow_pos (by norm_num) _
      have hlt := Int.lt_zpow_succ_log_self (b := 2) (by norm_num) |x|
      have habs : |x / 2 ^ (Int.log 2 |x| - 52)| < 2 ^ 53 := by
        rw [abs_div, abs_of_pos h2pos, div_lt_iff₀ h2pos]
        have : (2 : ℚ) ^ 53 * 2 ^ (Int.log 2 |x| - 52) = 2 ^ (Int.log 2 |x| + 1) := by
          rw [show (2 : ℚ) ^ 53 = 2 ^ (53 : ℤ) by norm_num, ← zpow_add₀ (by norm_num)]
          congr 1; ring
        rw [this]
        exact_mod_cast hlt
      have hb := hbounds (x / 2 ^ (Int.log 2 |x| - 52))
      have hfl1 : -(2 : ℤ) ^ 53 ≤ ⌊x / 2 ^ (Int.log 2 |x| - 52)⌋ := by
        rw [Int.le_floor]
        push_cast
        exact le_of_lt (abs_lt.1 habs).1
      have hfl2 : ⌊x / 2 ^ (Int.log 2 |x| - 52)⌋ < (2 : ℤ) ^ 53 := by
        rw [Int.floor_lt]
        push_cast
        exact (abs_lt.1 habs).2
      have hm : |roundHalfEven (x / 2 ^ (Int.log 2 |x| - 52))| ≤ 2 ^ 53 := by
        rw [abs_le]
        constructor <;> omega
      have e : AgenticDemandPlanning.binary64 x =
          (roundHalfEven (x / 2 ^ (Int.log 2 |x| - 52)) : ℚ) * 2 ^ (Int.log 2 |x| - 52) := by
        unfold AgenticDemandPlanning.binary64; rw [if_neg hx]
      rw [e]
      exact hrep _ _ hm
    fl_int := by
      intro n h
      have := hrep n 0 h
      simpa using this }

/-- Line 209: `row.Date.substring(0, 7)`. -/
def monthOf (row : Record) : JSString :=
  row.Date.take 7

/-- Line 210: the template string joining SKU and month with an underscore. -/
def groupKey (row : Record) : JSString :=
  row.SKU ++ '_' :: monthOf row

/-- Lines 213-220: the object stored for a key seen for the first time. -/
def newGroup (row : Record) : Group :=
  { Date := monthOf row, SKU := row.SKU, Baseline_P50 := 0, Plan := 0,
    Constrained_Plan := 0, Upside := 0 }

/-- Lines 224-227: the four `+=` statements, each a rounded addition. -/
def addRow (R : Rounding) (row : Record) (g : Group) : Group :=
  { g with
    Baseline_P50 := R.fl (g.Baseline_P50 + numberOrZero row.Baseline_P50)
    Plan := R.fl (g.Plan + numberOrZero row.Plan)
    Constrained_Plan := R.fl (g.Constrained_Plan + numberOrZero row.Constrained_Plan)
    Upside := R.fl (g.Upside + numberOrZero row.Upside) }

/-- One pass of the `forEach` body (lines 207-228) over the object `aggregated`.
When `key` is not an own property but is inherited from `Object.prototype`, the
test `!aggregated[key]` fails, no group is stored, and the four sums are written
to the inherited object: `aggregated` keeps its own properties. -/
def aggregateRow (R : Rounding) (aggregated : List (JSString × Group)) (row : Record) :
    List (JSString × Group) :=
  if hasOwn aggregated (groupKey row) then
    modifyOwn aggregated (groupKey row) (addRow R row)
  else if groupKey row ∈ objectPrototypeProps then
    aggregated
  else
    aggregated ++ [(groupKey row, addRow R row (newGroup row))]

/-- A group object read as a record by `renderTable`. -/
def Group.toRecord (g : Group) : Record :=
  { SKU := g.SKU, Date := g.Date, Baseline_P50 := JSValue.num g.Baseline_P50,
    Plan := JSValue.num g.Plan, Constrained_Plan := JSValue.num g.Constrained_Plan,
    Upside := JSValue.num g.Upside }

/-- Line 230: `Object.values(aggregated)` after the loop. Every key holds an
underscore, so none is an array index and the values come in insertion order. -/
def monthlyData (R : Rounding) (rawData : List Record) : List Record :=
  ((rawData.foldl (aggregateRow R) []).map Prod.snd).map Group.toRecord

/-- The record list `updateTableBucket` passes to `renderTable` (lines 199-231). -/
def updateTableBucket (R : Rounding) (bucket : String) (rawData : List Record) :
    List Record :=
  if bucket = "weekly" then rawData else monthlyData R rawData

/-- Sum of `Constrained_Plan` over the records of SKU `s`, as a sum of numbers
(no rounding), a `null` or missing value counting as `0`. -/
def constrainedPlanOf (s : JSString) (records : List Record) : ℚ :=
  ((records.filter (fun r => decide (r.SKU = s))).map
    (fun r => numberOrZero r.Constrained_Plan)).sum

/-- The grouping pair of a record: its SKU and the first 7 characters of its Date. -/
def groupPair (r : Record) : JSString × JSString :=
  (r.SKU, monthOf r)

/-- Sum of one metric over a list of records in double arithmetic: from 0, in the
order of the list, each addition rounded; a value that is `null`, missing or
converts to `NaN` counts as `0`. -/
def sumField (R : Rounding) (f : Record → JSValue) (rows : List Record) : ℚ :=
  rows.foldl (fun acc r => R.fl (acc + numberOrZero (f r))) 0

/-- The same sum without rounding. -/
def exactSum (f : Record → JSValue) (rows : List Record) : ℚ :=
  (rows.map (fun r => numberOrZero (f r))).sum

/-- The group the specification describes for the pair `p`, given the records of
that pair. -/
def specGroup (R : Rounding) (p : JSString × JSString) (rows : List Record) : Group :=
  { Date := p.2, SKU := p.1,
    Baseline_P50 := sumField R (fun r => r.Baseline_P50) rows,
    Plan := sumField R (fun r => r.Plan) rows,
    Constrained_Plan := sumField R (fun r => r.Constrained_Plan) rows,
    Upside := sumField R (fun r => r.Upside) rows }

/-- The records of `rawData` whose grouping pair is `p`. -/
def rowsOf (rawData : List Record) (p : JSString × JSString) : List Record :=
  rawData.filter (fun r => decide (groupPair r = p))

/-- Monthly grouping as the specification words it: one record per distinct
(SKU, month) pair, in order of first appearance, each metric the sum over the
records of the pair. -/
def monthlySpec (R : Rounding) (rawData : List Record) : List Record :=
  (setOf (rawData.map groupPair)).map
    (fun p => (specGroup R p (rowsOf rawData p)).toRecord)

/-- The object `aggregated` in terms of the specification: one property per distinct
(SKU, month) pair of `pre`, in order of first appearance, holding the group of the
pair (`foldl_aggregateRow_aggSpec` relates it to the loop of lines 207-228). -/
def aggSpec (R : Rounding) (pre : List Record) : List (JSString × Group) :=
  (setOf (pre.map groupPair)).map
    (fun p => (p.1 ++ '_' :: p.2, specGroup R p (rowsOf pre p)))


/-- A metric value of the data model that needs no rounding to add: an integer
number, `null`, or a missing field. -/
def IsIntegerOrAbsent : JSValue → Prop
  | JSValue.num q => ∃ k : ℤ, q = (k : ℚ)
  | JSValue.null => True
  | JSValue.undefined => True
  | JSValue.other _ _ => False

/-! ## Pivot table (`renderTable`, lines 124-187) and SKU filter (`filterTable`) -/

/-- The comparison the default `Array.prototype.sort` applies to two strings:
`a` does not come after `b` in the lexicographic order of their code units. -/
def strLe : JSString → JSString → Bool
  | [], _ => true
  | _ :: _, [] => false
  | a :: as, b :: bs => if a = b then strLe as bs else decide (a < b)

/-- Strict version of `strLe`. -/
def strLt (a b : JSString) : Bool :=
  strLe a b && !strLe b a

/-- The call `xs.sort()` on an array of strings. -/
def sortStrings (xs : List JSString) : List JSString :=
  xs.insertionSort (fun a b => strLe a b = true)

/-- Line 135: the distinct dates of the data, sorted. -/
def allDates (data : List Record) : List JSString :=
  sortStrings (setOf (data.map (fun d => d.Date)))

/-- The assignment `obj[key] = value` on an object whose own properties are `obj`. -/
def setOwn {β : Type} (obj : List (JSString × β)) (key : JSString) (value : β) :
    List (JSString × β) :=
  if hasOwn obj key then modifyOwn obj key (fun _ => value) else obj ++ [(key, value)]

/-- The own property `key` of `obj`, if there is one. -/
def getOwn {β : Type} : List (JSString × β) → JSString → Option β
  | [], _ => none
  | p :: rest, key => if p.1 = key then some p.2 else getOwn rest key

/-- The field names of a record. -/
def recordFields : List JSString :=
  [ "SKU".toList, "Date".toList, "Baseline_P50".toList, "Plan".toList,
    "Constrained_Plan".toList, "Upside".toList ]

/-- The objects a run of `renderTable` writes to: the own properties of
`skuGroups`, and the properties that line 141 has added to `Object.prototype`
(none at the start of a run). -/
structure PivotState where
  skuGroups : List (JSString × List (JSString × Record))
  prototypeProps : List (JSString × Record)
  deriving DecidableEq

/-- The state at line 138. -/
def PivotState.init : PivotState :=
  { skuGroups := [], prototypeProps := [] }

/-- One pass of the `forEach` body of lines 139-142.

* An own property `row.SKU` of `skuGroups` receives `row` under `row.Date` (for the
  date `__proto__` the row becomes the prototype of the inner object, which reads
  back under that date like an own property).
* Otherwise, when `skuGroups[row.SKU]` is inherited, it is truthy, the test of
  line 140 fails, no own property is created, and line 141 writes `row` into the
  inherited object:
  - for `__proto__` that object is `Object.prototype`, which gains the property
    `row.Date`;
  - for the other names of `objectPrototypeProps` it is a built-in function, and
    nothing `renderTable` reads changes.
* Otherwise a new own property is created.

The result is `none` where the write leaves what this embedding describes: into a
record that an earlier pass added to `Object.prototype`, into the function `Object`
(`constructor`), or into `Object.prototype` under one of its own names or under a
field name of the records. -/
def groupRow (st : PivotState) (row : Record) : Option PivotState :=
  if hasOwn st.skuGroups row.SKU then
    some { st with
      skuGroups := modifyOwn st.skuGroups row.SKU (fun skuData => setOwn skuData row.Date row) }
  else if hasOwn st.prototypeProps row.SKU then
    none
  else if row.SKU = "__proto__".toList then
    if row.Date ∈ objectPrototypeProps ++ recordFields then none
    else some { st with prototypeProps := setOwn st.prototypeProps row.Date row }
  else if row.SKU = "constructor".toList then
    none
  else if row.SKU ∈ objectPrototypeProps then
    some st
  else
    some { st with skuGroups := st.skuGroups ++ [(row.SKU, setOwn [] row.Date row)] }

/-- The loop of lines 139-142. -/
def buildGroups : List Record → PivotState → Option PivotState
  | [], st => some st
  | row :: rest, st =>
    match groupRow st row with
    | none => none
    | some next => buildGroups rest next

/-- The three metrics of lines 159-163. -/
inductive Metric where
  | Baseline_P50
  | Constrained_Plan
  | Upside
  deriving DecidableEq

/-- The expression `record[metric.key]`. -/
def Metric.key : Metric → Record → JSValue
  | Metric.Baseline_P50, r => r.Baseline_P50
  | Metric.Constrained_Plan, r => r.Constrained_Plan
  | Metric.Upside, r => r.Upside

/-- The field `label` of a metric. -/
def Metric.label : Metric → JSString
  | Metric.Baseline_P50 => "Baseline".toList
  | Metric.Constrained_Plan => "Constrained Plan".toList
  | Metric.Upside => "Upside".toList

/-- The array `metrics` of lines 159-163, in its order. -/
def metrics : List Metric :=
  [Metric.Baseline_P50, Metric.Constrained_Plan, Metric.Upside]

/-- The text of a table cell: a string, or the exponent notation of a number of
magnitude `10^21` or more, which `toFixed` leaves to `Number.prototype.toString`. -/
inductive CellText where
  | text (s : JSString)
  | exponent (q : ℚ)
  deriving DecidableEq

/-- The call `x.toFixed(0)`: below `10^21` in magnitude, an optional minus sign and
the decimal digits of the integer nearest to the magnitude, the larger one on a tie. -/
def toFixed0 (x : ℚ) : CellText :=
  if (10 : ℚ) ^ 21 ≤ |x| then CellText.exponent x
  else CellText.text ((if x < 0 then ['-'] else []) ++ Nat.toDigits 10 ⌊|x| + 1 / 2⌋.toNat)

/-- The placeholder of line 174. -/
def placeholder : CellText :=
  CellText.text ['-']

/-- Lines 173-177: the text of the cell for the value `record` read from
`skuData[date]`. A missing entry leaves the placeholder, and so does a metric that
is `null` or `undefined`; `parseFloat` of a number is that number, and of another
value it is what `asFloat` says, `NaN` being printed as such by `toFixed`. -/
def cellText (record : Option Record) (metric : Metric) : CellText :=
  match record with
  | none => placeholder
  | some r =>
    match metric.key r with
    | JSValue.null => placeholder
    | JSValue.undefined => placeholder
    | JSValue.num q => toFixed0 q
    | JSValue.other _ (some q) => toFixed0 q
    | JSValue.other _ none => CellText.text "NaN".toList

/-- A row appended to the table body on line 181. -/
structure Row where
  sku : JSString
  label : JSString
  cells : List CellText
  deriving DecidableEq

/-- What a run of `renderTable` leaves on the page: the message of line 129, or the
header dates and the body rows; `builtinWrite` stands for a run in which line 141
writes into a built-in object in one of the ways `groupRow` does not follow. -/
inductive Rendered where
  | noData
  | table (columns : List JSString) (rows : List Row)
  | builtinWrite
  deriving DecidableEq

/-- The read `skuData[date]` of line 173, as far as line 175 can tell: an own
property of `skuData`, else a property this run added to `Object.prototype`. Any
other inherited value is a built-in function, which has none of the metric
fields, and counts as absent. -/
def readDate (st : PivotState) (skuData : List (JSString × Record)) (date : JSString) :
    Option Record :=
  match getOwn skuData date with
  | some r => some r
  | none => getOwn st.prototypeProps date

/-- Lines 165-182 for one SKU: one row per metric, one cell per column date. -/
def skuRows (st : PivotState) (dates : List JSString) (sku : JSString) : List Row :=
  metrics.map (fun metric =>
    { sku := sku, label := metric.label,
      cells := dates.map (fun date =>
        cellText (readDate st ((getOwn st.skuGroups sku).getD []) date) metric) })

/-- The function `renderTable` (lines 124-187). The keys of `skuGroups` are sorted
before use, so the order in which `Object.keys` lists them does not matter. -/
def renderTable (data : List Record) : Rendered :=
  if data.length = 0 then Rendered.noData
  else
    match buildGroups data PivotState.init with
    | none => Rendered.builtinWrite
    | some st =>
      Rendered.table (allDates data)
        ((sortStrings (st.skuGroups.map Prod.fst)).flatMap (fun sku =>
          skuRows st (allDates data) sku))

/-- The call `s.includes(sub)`: `sub` occurs in `s` as a contiguous run. -/
def includes (s sub : JSString) : Bool :=
  s.tails.any (fun t => sub.isPrefixOf t)

/-- The record list `filterTable` passes to `renderTable` (lines 190-194).
`toLowerCase` is the built-in `String.prototype.toLowerCase` and `filterValue`
the content of the input field. -/
def filterTable (toLowerCase : JSString → JSString) (filterValue : JSString)
    (rawData : List Record) : List Record :=
  rawData.filter (fun row => includes (toLowerCase row.SKU) (toLowerCase filterValue))

/-- Lowering of the letters `A` to `Z`, which is what `toLowerCase` does on a string of
ASCII characters. -/
def asciiLower (s : JSString) : JSString :=
  s.map Char.toLower

/-- The last record of `data` with the given SKU and Date, if there is one. -/
def lastRecord (data : List Record) (sku date : JSString) : Option Record :=
  data.reverse.find? (fun r => decide (r.SKU = sku ∧ r.Date = date))

/-- The record `skuGroups[sku][date]`, if both own properties are there. -/
def groupEntry (skuGroups : List (JSString × List (JSString × Record)))
    (sku date : JSString) : Option Record :=
  getOwn ((getOwn skuGroups sku).getD []) date

/-- The three rows the specification fixes for a SKU: its metric labels in order. -/
def metricRowsOf (sku : JSString) : List (JSString × JSString) :=
  [ (sku, "Baseline".toList), (sku, "Constrained Plan".toList), (sku, "Upside".toList) ]

/-- The rows of the pivot table as the specification words them: for each SKU in
order, one row per metric, the cell of a date decided by the last record with that
SKU and Date. -/
def pivotRows (data : List Record) (dates skus : List JSString) : List Row :=
  skus.flatMap (fun sku =>
    metrics.map (fun metric =>
      { sku := sku, label := metric.label,
        cells := dates.map (fun date => cellText (lastRecord data sku date) metric) }))

/-- A record with the given SKU, Date and `Constrained_Plan`, the other metrics `null`. -/
def planRecord (sku date : String) (constrainedPlan : JSValue) : Record :=
  { SKU := sku.toList, Date := date.toList, Baseline_P50 := JSValue.null, Plan := JSValue.null,
    Constrained_Plan := constrainedPlan, Upside := JSValue.null }

/-! ## Chart decimation: proofs -/

theorem foldl_min_le_init (xs : List ℚ) (a : ℚ) : xs.foldl min a ≤ a := by
  induction xs generalizing a with
  | nil => simp
  | cons x xs ih => exact le_trans (ih (min a x)) (min_le_left a x)

theorem foldl_min_le_of_mem (xs : List ℚ) (a : ℚ) : ∀ y ∈ xs, xs.foldl min a ≤ y := by
  induction xs generalizing a with
  | nil => simp
  | cons x xs ih =>
    intro y hy
    rcases List.mem_cons.1 hy with rfl | hy
    · exact le_trans (foldl_min_le_init xs (min a y)) (min_le_right a y)
    · exact ih (min a x) y hy

theorem foldl_min_mem (xs : List ℚ) (a : ℚ) : xs.foldl min a = a ∨ xs.foldl min a ∈ xs := by
  induction xs generalizing a with
  | nil => simp
  | cons x xs ih =>
    rcases ih (min a x) with h | h
    · rcases min_choice a x with h2 | h2
      · left; simp only [List.foldl_cons]; rw [h, h2]
      · right; simp only [List.foldl_cons]; rw [h, h2]; exact List.mem_cons_self _ _
    · right; exact List.mem_cons_of_mem _ h

theorem foldl_max_init_le (xs : List ℚ) (a : ℚ) : a ≤ xs.foldl max a := by
  induction xs generalizing a with
  | nil => simp
  | cons x xs ih => exact le_trans (le_max_left a x) (ih (max a x))

theorem foldl_max_le_of_mem (xs : List ℚ) (a : ℚ) : ∀ y ∈ xs, y ≤ xs.foldl max a := by
  induction xs generalizing a with
  | nil => simp
  | cons x xs ih =>
    intro y hy
    rcases List.mem_cons.1 hy with rfl | hy
    · exact le_trans (le_max_right a y) (foldl_max_init_le xs (max a y))
    · exact ih (max a x) y hy

theorem foldl_max_mem (xs : List ℚ) (a : ℚ) : xs.foldl max a = a ∨ xs.foldl max a ∈ xs := by
  induction xs generalizing a with
  | nil => simp
  | cons x xs ih =>
    rcases ih (max a x) with h | h
    · rcases max_choice a x with h2 | h2
      · left; simp only [List.foldl_cons]; rw [h, h2]
      · right; simp only [List.foldl_cons]; rw [h, h2]; exact List.mem_cons_self _ _
    · right; exact List.mem_cons_of_mem _ h

theorem mathMin_mem (xs : List ℚ) (h : xs ≠ []) : mathMin xs ∈ xs := by
  cases xs with
  | nil => exact absurd rfl h
  | cons x xs =>
    unfold mathMin
    rcases foldl_min_mem (x :: xs) x with h1 | h1
    · simp only [List.headD_cons]; rw [h1]; exact List.mem_cons_self _ _
    · exact h1

theorem mathMin_le (xs : List ℚ) : ∀ y ∈ xs, mathMin xs ≤ y :=
  foldl_min_le_of_mem xs _

theorem mathMax_mem (xs : List ℚ) (h : xs ≠ []) : mathMax xs ∈ xs := by
  cases xs with
  | nil => exact absurd rfl h
  | cons x xs =>
    unfold mathMax
    rcases foldl_max_mem (x :: xs) x with h1 | h1
    · simp only [List.headD_cons]; rw [h1]; exact List.mem_cons_self _ _
    · exact h1

theorem le_mathMax (xs : List ℚ) : ∀ y ∈ xs, y ≤ mathMax xs :=
  foldl_max_le_of_mem xs _

theorem sumReduce_eq_sum (xs : List ℚ) : sumReduce xs = xs.sum := by
  unfold sumReduce
  have h : ∀ (ys : List ℚ) (a : ℚ), ys.foldl (fun a b => a + b) a = a + ys.sum := by
    intro ys
    induction ys with
    | nil => intro a; simp
    | cons y ys ih => intro a; simp only [List.foldl_cons, List.sum_cons]; rw [ih]; ring
  rw [h]; ring


theorem indexOf_isFirst (xs : List ℚ) (v : ℚ) (h : v ∈ xs) :
    IsFirstIndexOf xs v (indexOf xs v) := by
  unfold indexOf
  induction xs with
  | nil => simp at h
  | cons x xs ih =>
    by_cases hx : x = v
    · subst hx
      refine ⟨by simp, ?_⟩
      intro j hj; simp at hj
    · have hv : v ∈ xs := by
        rcases List.mem_cons.1 h with h1 | h1
        · exact absurd h1.symm hx
        · exact h1
      have ih2 := ih hv
      have he : (x :: xs).indexOf v = xs.indexOf v + 1 := by
        rw [List.indexOf_cons_ne _ hx]
      rw [he]
      refine ⟨by simpa using ih2.1, ?_⟩
      intro j hj
      cases j with
      | zero => simpa using hx
      | succ j => simpa using ih2.2 j (by omega)


theorem foldl_closerStep (a : ℚ) (rest : List ℚ) (acc : ℚ) :
    (rest.foldl (closerStep a) acc = acc ∧ ∀ y ∈ rest, |acc - a| ≤ |y - a|) ∨
    (∃ pre post, rest = pre ++ rest.foldl (closerStep a) acc :: post ∧
      |rest.foldl (closerStep a) acc - a| < |acc - a| ∧
      (∀ y ∈ pre, |rest.foldl (closerStep a) acc - a| < |y - a|) ∧
      ∀ y ∈ post, |rest.foldl (closerStep a) acc - a| ≤ |y - a|) := by
  induction rest generalizing acc with
  | nil => left; simp
  | cons x rest ih =>
    simp only [List.foldl_cons]
    by_cases hlt : |x - a| < |acc - a|
    · have hs : closerStep a acc x = x := by simp [closerStep, hlt]
      rw [hs]
      rcases ih x with ⟨h1, h2⟩ | ⟨pre, post, h1, h2, h3, h4⟩
      · right
        refine ⟨[], rest, by rw [h1]; rfl, by rw [h1]; exact hlt, by simp, ?_⟩
        rw [h1]; exact h2
      · right
        refine ⟨x :: pre, post, by rw [List.cons_append, ← h1], lt_trans h2 hlt, ?_, h4⟩
        intro y hy
        rcases List.mem_cons.1 hy with rfl | hy
        · exact h2
        · exact h3 y hy
    · have hs : closerStep a acc x = acc := by simp [closerStep, hlt]
      rw [hs]
      have hle : |acc - a| ≤ |x - a| := not_lt.1 hlt
      rcases ih acc with ⟨h1, h2⟩ | ⟨pre, post, h1, h2, h3, h4⟩
      · left
        refine ⟨h1, ?_⟩
        intro y hy
        rcases List.mem_cons.1 hy with rfl | hy
        · exact hle
        · exact h2 y hy
      · right
        refine ⟨x :: pre, post, by rw [List.cons_append, ← h1], h2, ?_, h4⟩
        intro y hy
        rcases List.mem_cons.1 hy with rfl | hy
        · exact lt_of_lt_of_le h2 hle
        · exact h3 y hy

theorem closestAvg_split (a : ℚ) (xs : List ℚ) (h : xs ≠ []) :
    ∃ pre post, xs = pre ++ closestAvg a xs :: post ∧
      (∀ y ∈ pre, |closestAvg a xs - a| < |y - a|) ∧
      ∀ y ∈ post, |closestAvg a xs - a| ≤ |y - a| := by
  cases xs with
  | nil => exact absurd rfl h
  | cons x rest =>
    simp only [closestAvg]
    rcases foldl_closerStep a rest x with ⟨h1, h2⟩ | ⟨pre, post, h1, h2, h3, h4⟩
    · refine ⟨[], rest, by rw [h1]; rfl, by simp, ?_⟩
      rw [h1]; exact h2
    · refine ⟨x :: pre, post, by rw [List.cons_append, ← h1], ?_, h4⟩
      intro y hy
      rcases List.mem_cons.1 hy with rfl | hy
      · exact h2
      · exact h3 y hy

theorem indexOf_append_cons (pre post : List ℚ) (v : ℚ) (h : v ∉ pre) :
    indexOf (pre ++ v :: post) v = pre.length := by
  unfold indexOf
  induction pre with
  | nil => simp
  | cons p pre ih =>
    have hp : p ≠ v := fun e => h (by rw [e]; exact List.mem_cons_self _ _)
    have hv : v ∉ pre := fun e => h (List.mem_cons_of_mem _ e)
    rw [List.cons_append, List.indexOf_cons_ne _ hp, ih hv]
    rfl


theorem closestAvg_mem (a : ℚ) (xs : List ℚ) (h : xs ≠ []) : closestAvg a xs ∈ xs := by
  obtain ⟨pre, post, h1, -, -⟩ := closestAvg_split a xs h
  generalize closestAvg a xs = c at h1
  rw [h1]; simp

theorem indexOf_closestAvg (a : ℚ) (xs : List ℚ) (h : xs ≠ []) :
    IsFirstClosest a xs (indexOf xs (closestAvg a xs)) := by
  obtain ⟨pre, post, h1, h2, h3⟩ := closestAvg_split a xs h
  generalize closestAvg a xs = c at h1 h2 h3
  have hnot : c ∉ pre := fun hm => lt_irrefl _ (h2 _ hm)
  subst h1
  rw [indexOf_append_cons pre post _ hnot]
  refine ⟨c, by rw [List.getElem?_append_right (le_refl _)]; simp, ?_, ?_⟩
  · intro y hy
    rcases List.mem_append.1 hy with hy | hy
    · exact le_of_lt (h2 y hy)
    · rcases List.mem_cons.1 hy with rfl | hy
      · exact le_refl _
      · exact h3 y hy
  · intro j w hj hw
    rw [List.getElem?_append_left hj] at hw
    exact h2 w (List.getElem?_mem hw)


theorem mem_setOf {α : Type} [DecidableEq α] (xs : List α) (y : α) :
    y ∈ setOf xs ↔ y ∈ xs := by
  induction xs with
  | nil => simp [setOf]
  | cons x xs ih =>
    simp only [setOf, List.mem_cons, List.mem_filter, decide_eq_true_eq, ih]
    by_cases h : y = x
    · simp [h]
    · simp [h]

theorem nodup_setOf {α : Type} [DecidableEq α] (xs : List α) : (setOf xs).Nodup := by
  induction xs with
  | nil => simp [setOf]
  | cons x xs ih =>
    simp only [setOf, List.nodup_cons, List.mem_filter, decide_eq_true_eq]
    exact ⟨fun h => h.2 rfl, ih.filter _⟩

theorem length_setOf_le {α : Type} [DecidableEq α] (xs : List α) :
    (setOf xs).length ≤ xs.length := by
  induction xs with
  | nil => simp [setOf]
  | cons x xs ih =>
    simp only [setOf, List.length_cons]
    exact Nat.succ_le_succ (le_trans (List.length_filter_le _ _) ih)

theorem setOf_eq_self_of_nodup {α : Type} [DecidableEq α] (xs : List α) (h : xs.Nodup) :
    setOf xs = xs := by
  induction xs with
  | nil => simp [setOf]
  | cons x xs ih =>
    rw [List.nodup_cons] at h
    simp only [setOf, ih h.2]
    congr 1
    apply List.filter_eq_self.2
    intro y hy
    simp only [decide_eq_true_eq]
    intro e; exact h.1 (e ▸ hy)

theorem mem_uniqueIndices (xs : List ℚ) (i : Nat) :
    i ∈ uniqueIndices xs ↔ i ∈ keyIndices xs := by
  unfold uniqueIndices
  rw [List.mem_insertionSort, mem_setOf]

theorem sorted_uniqueIndices (xs : List ℚ) : (uniqueIndices xs).Sorted (fun a b => a < b) := by
  unfold uniqueIndices
  have h1 : ((setOf (keyIndices xs)).insertionSort (fun a b => a ≤ b)).Sorted (fun a b => a ≤ b) :=
    List.sorted_insertionSort _ _
  have h2 : ((setOf (keyIndices xs)).insertionSort (fun a b => a ≤ b)).Nodup :=
    (List.perm_insertionSort _ _).nodup_iff.2 (nodup_setOf _)
  exact h1.lt_of_le h2

theorem length_uniqueIndices_le (xs : List ℚ) : (uniqueIndices xs).length ≤ 3 := by
  unfold uniqueIndices
  rw [List.length_insertionSort]
  exact le_trans (length_setOf_le _) (by simp [keyIndices])

theorem length_uniqueIndices_pos (xs : List ℚ) : 1 ≤ (uniqueIndices xs).length := by
  unfold uniqueIndices
  rw [List.length_insertionSort]
  simp [keyIndices, setOf]


theorem keyIndices_lt (xs : List ℚ) (h : xs ≠ []) : ∀ i ∈ keyIndices xs, i < xs.length := by
  intro i hi
  simp only [keyIndices, List.mem_cons, List.mem_singleton, List.not_mem_nil, or_false] at hi
  rcases hi with rfl | rfl | rfl
  · exact List.indexOf_lt_length.2 (mathMin_mem xs h)
  · exact List.indexOf_lt_length.2 (mathMax_mem xs h)
  · exact List.indexOf_lt_length.2 (closestAvg_mem _ xs h)

theorem ne_nil_of_long (xs : List ℚ) (h : 20 < xs.length) : xs ≠ [] := by
  intro e; rw [e] at h; simp at h

theorem renderChart_line_long {L : Type} [Inhabited L] (labels : List L) (dataPoints : List ℚ)
    (h : 20 < dataPoints.length) :
    renderChart "line" labels dataPoints =
      ((uniqueIndices dataPoints).map (fun i => labels.getD i default),
       (uniqueIndices dataPoints).map (fun i => dataPoints.getD i 0)) := by
  unfold renderChart
  rw [if_pos ⟨rfl, h⟩]

/-- C5: a series of at most 20 values, and a series of any length whose chart type is
not `line`, reaches the chart unchanged and in the same order; the empty series gives
the empty output. -/
theorem renderChart_identity {L : Type} [Inhabited L] (type : String) (labels : List L)
    (dataPoints : List ℚ) (h : dataPoints.length ≤ 20 ∨ type ≠ "line") :
    renderChart type labels dataPoints = (labels, dataPoints) ∧
      renderChart type ([] : List L) [] = ([], []) := by
  constructor
  · unfold renderChart
    rw [if_neg]
    rintro ⟨h1, h2⟩
    rcases h with h | h
    · omega
    · exact h h1
  · unfold renderChart
    rw [if_neg]
    simp

/-- C9: decimating the output of `renderChart` again, under the same chart type,
returns that output unchanged. -/
theorem renderChart_idempotent {L : Type} [Inhabited L] (type : String) (labels : List L)
    (dataPoints : List ℚ) :
    renderChart type (renderChart type labels dataPoints).1 (renderChart type labels dataPoints).2 =
      renderChart type labels dataPoints := by
  by_cases h : type = "line" ∧ dataPoints.length > 20
  · have e : renderChart type labels dataPoints =
        ((uniqueIndices dataPoints).map (fun i => labels.getD i default),
         (uniqueIndices dataPoints).map (fun i => dataPoints.getD i 0)) := by
      unfold renderChart; rw [if_pos h]
    rw [e]
    unfold renderChart
    rw [if_neg]
    rintro ⟨-, h2⟩
    simp only [List.length_map] at h2
    have := length_uniqueIndices_le dataPoints
    omega
  · have e : renderChart type labels dataPoints = (labels, dataPoints) := by
      unfold renderChart; rw [if_neg h]
    rw [e]
    exact e

/-- C3: for a line series of more than 20 values the decimated output has between 1
and 3 points, taken at a strictly increasing list of input indices (labels and values
at the same indices), and its values contain a global minimum and a global maximum
of the input. -/
theorem renderChart_decimated_shape {L : Type} [Inhabited L] (labels : List L)
    (dataPoints : List ℚ) (h : 20 < dataPoints.length) :
    ∃ idx : List Nat,
      (1 ≤ idx.length ∧ idx.length ≤ 3) ∧
      idx.Sorted (fun a b => a < b) ∧
      (∀ i ∈ idx, i < dataPoints.length) ∧
      renderChart "line" labels dataPoints =
        (idx.map (fun i => labels.getD i default), idx.map (fun i => dataPoints.getD i 0)) ∧
      (∃ m ∈ (renderChart "line" labels dataPoints).2,
        m ∈ dataPoints ∧ ∀ y ∈ dataPoints, m ≤ y) ∧
      (∃ m ∈ (renderChart "line" labels dataPoints).2,
        m ∈ dataPoints ∧ ∀ y ∈ dataPoints, y ≤ m) := by
  have hne := ne_nil_of_long dataPoints h
  have hval : ∀ v ∈ dataPoints, indexOf dataPoints v ∈ keyIndices dataPoints →
      v ∈ (renderChart "line" labels dataPoints).2 := by
    intro v hv hk
    rw [renderChart_line_long labels dataPoints h]
    simp only [List.mem_map]
    refine ⟨indexOf dataPoints v, (mem_uniqueIndices _ _).2 hk, ?_⟩
    have h1 := (indexOf_isFirst dataPoints v hv).1
    simp [List.getD, h1]
  refine ⟨uniqueIndices dataPoints, ⟨length_uniqueIndices_pos _, length_uniqueIndices_le _⟩,
    sorted_uniqueIndices _, ?_, renderChart_line_long labels dataPoints h, ?_, ?_⟩
  · intro i hi
    exact keyIndices_lt dataPoints hne i ((mem_uniqueIndices _ _).1 hi)
  · exact ⟨mathMin dataPoints, hval _ (mathMin_mem _ hne) (by simp [keyIndices]),
      mathMin_mem _ hne, mathMin_le _⟩
  · exact ⟨mathMax dataPoints, hval _ (mathMax_mem _ hne) (by simp [keyIndices]),
      mathMax_mem _ hne, le_mathMax _⟩


theorem decimate_selects {L : Type} [Inhabited L] (labels : List L)
    (dataPoints : List ℚ) (h : 20 < dataPoints.length) :
    ∃ (vMin vMax : ℚ) (iMin iMax iAvg : Nat) (idx : List Nat),
      (∀ y ∈ dataPoints, vMin ≤ y) ∧ IsFirstIndexOf dataPoints vMin iMin ∧
      (∀ y ∈ dataPoints, y ≤ vMax) ∧ IsFirstIndexOf dataPoints vMax iMax ∧
      IsFirstClosest (dataPoints.sum / (dataPoints.length : ℚ)) dataPoints iAvg ∧
      idx.Sorted (fun a b => a < b) ∧
      (∀ i, i ∈ idx ↔ i = iMin ∨ i = iMax ∨ i = iAvg) ∧
      renderChart "line" labels dataPoints =
        (idx.map (fun i => labels.getD i default), idx.map (fun i => dataPoints.getD i 0)) := by
  have hne := ne_nil_of_long dataPoints h
  refine ⟨mathMin dataPoints, mathMax dataPoints, indexOf dataPoints (mathMin dataPoints),
    indexOf dataPoints (mathMax dataPoints),
    indexOf dataPoints (closestAvg (average dataPoints) dataPoints), uniqueIndices dataPoints,
    mathMin_le _, indexOf_isFirst _ _ (mathMin_mem _ hne),
    le_mathMax _, indexOf_isFirst _ _ (mathMax_mem _ hne), ?_,
    sorted_uniqueIndices _, ?_, renderChart_line_long labels dataPoints h⟩
  · have he : average dataPoints = dataPoints.sum / (dataPoints.length : ℚ) := by
      rw [average, sumReduce_eq_sum]
    rw [← he]
    exact indexOf_closestAvg (average dataPoints) dataPoints hne
  · intro i
    rw [mem_uniqueIndices]
    simp [keyIndices]


theorem isFirstIndexOf_unique (xs : List ℚ) (v : ℚ) (i j : Nat)
    (hi : IsFirstIndexOf xs v i) (hj : IsFirstIndexOf xs v j) : i = j := by
  rcases Nat.lt_trichotomy i j with h | h | h
  · exact absurd hi.1 (hj.2 i h)
  · exact h
  · exact absurd hj.1 (hi.2 j h)

theorem isFirstClosest_unique (a : ℚ) (xs : List ℚ) (i j : Nat)
    (hi : IsFirstClosest a xs i) (hj : IsFirstClosest a xs j) : i = j := by
  obtain ⟨v, hv1, hv2, hv3⟩ := hi
  obtain ⟨w, hw1, hw2, hw3⟩ := hj
  rcases Nat.lt_trichotomy i j with h | h | h
  · exact absurd (hw3 i v h hv1) (not_lt.2 (hv2 w (List.getElem?_mem hw1)))
  · exact h
  · exact absurd (hv3 j w h hw1) (not_lt.2 (hw2 v (List.getElem?_mem hv1)))

theorem ramp_length : ramp.length = 25 := by simp [ramp]

theorem ramp_getElem? (i : Nat) (h : i < 25) : ramp[i]? = some (100 + 100 * (i : ℚ) / 3) := by
  simp [ramp, List.getElem?_map, List.getElem?_range h]

theorem ramp_mem (y : ℚ) (h : y ∈ ramp) : ∃ i : Nat, i < 25 ∧ y = 100 + 100 * (i : ℚ) / 3 := by
  simp only [ramp, List.mem_map, List.mem_range] at h
  obtain ⟨i, hi, e⟩ := h
  exact ⟨i, hi, e.symm⟩

theorem ramp_isFirstIndexOf (i : Nat) (h : i < 25) :
    IsFirstIndexOf ramp (100 + 100 * (i : ℚ) / 3) i := by
  refine ⟨ramp_getElem? i h, ?_⟩
  intro j hj e
  rw [ramp_getElem? j (by omega)] at e
  have e2 : (j : ℚ) = (i : ℚ) := by
    have := Option.some.inj e
    linarith
  have : j = i := by exact_mod_cast e2
  omega

theorem ramp_average : average ramp = 500 := by
  rw [average, sumReduce_eq_sum, ramp_length]
  simp only [ramp, List.range_succ, List.range_zero, List.nil_append, List.map_append,
    List.map_cons, List.map_nil, List.sum_append, List.sum_cons, List.sum_nil]
  norm_num

theorem ramp_indexOf_min : indexOf ramp (mathMin ramp) = 0 := by
  have hne : ramp ≠ [] := by intro e; have := ramp_length; rw [e] at this; simp at this
  have h0 : (100 : ℚ) ∈ ramp := by
    have := List.getElem?_mem (ramp_getElem? 0 (by omega))
    simpa using this
  have hv : mathMin ramp = 100 := by
    apply le_antisymm (mathMin_le ramp 100 h0)
    obtain ⟨i, -, e⟩ := ramp_mem _ (mathMin_mem ramp hne)
    rw [e]
    have : (0 : ℚ) ≤ (i : ℚ) := Nat.cast_nonneg i
    linarith
  have h1 := indexOf_isFirst ramp _ (mathMin_mem ramp hne)
  have h2 := ramp_isFirstIndexOf 0 (by omega)
  rw [hv] at h1
  rw [hv]
  exact isFirstIndexOf_unique ramp _ _ _ h1 (by simpa using h2)

theorem ramp_indexOf_max : indexOf ramp (mathMax ramp) = 24 := by
  have hne : ramp ≠ [] := by intro e; have := ramp_length; rw [e] at this; simp at this
  have h2 := ramp_isFirstIndexOf 24 (by omega)
  have e24 : (100 : ℚ) + 100 * ((24 : Nat) : ℚ) / 3 = 900 := by norm_num
  rw [e24] at h2
  have h0 : (900 : ℚ) ∈ ramp := List.getElem?_mem h2.1
  have hv : mathMax ramp = 900 := by
    apply le_antisymm _ (le_mathMax ramp 900 h0)
    obtain ⟨i, hi, e⟩ := ramp_mem _ (mathMax_mem ramp hne)
    rw [e]
    have : (i : ℚ) ≤ 24 := by exact_mod_cast (by omega : i ≤ 24)
    linarith
  have h1 := indexOf_isFirst ramp _ (mathMax_mem ramp hne)
  rw [hv] at h1
  rw [hv]
  exact isFirstIndexOf_unique ramp _ _ _ h1 h2

theorem ramp_indexOf_avg : indexOf ramp (closestAvg (average ramp) ramp) = 12 := by
  have hne : ramp ≠ [] := by intro e; have := ramp_length; rw [e] at this; simp at this
  have h1 := indexOf_closestAvg (average ramp) ramp hne
  rw [ramp_average] at h1 ⊢
  refine isFirstClosest_unique 500 ramp _ _ h1 ⟨500, ?_, ?_, ?_⟩
  · have := ramp_getElem? 12 (by omega)
    rw [this]; norm_num
  · intro y _
    simp
  · intro j w hj hw
    rw [ramp_getElem? j (by omega)] at hw
    have hw2 := Option.some.inj hw
    have hj2 : (j : ℚ) ≤ 11 := by exact_mod_cast (by omega : j ≤ 11)
    have hne2 : w - 500 ≠ 0 := by
      intro e; rw [← hw2] at e; linarith
    simpa using hne2

theorem ramp_uniqueIndices : uniqueIndices ramp = [0, 12, 24] := by
  unfold uniqueIndices keyIndices
  rw [ramp_indexOf_min, ramp_indexOf_max, ramp_indexOf_avg]
  decide

/-! ## Plain objects: reads after writes -/

theorem hasOwn_iff_mem_keys {β : Type} (obj : List (JSString × β)) (key : JSString) :
    hasOwn obj key = true ↔ key ∈ obj.map Prod.fst := by
  induction obj with
  | nil => simp [hasOwn]
  | cons p obj ih =>
    simp only [hasOwn, Bool.or_eq_true, decide_eq_true_eq, ih, List.map_cons, List.mem_cons]
    constructor
    · rintro (h | h)
      · exact Or.inl h.symm
      · exact Or.inr h
    · rintro (h | h)
      · exact Or.inl h.symm
      · exact Or.inr h

theorem keys_modifyOwn {β : Type} (obj : List (JSString × β)) (key : JSString) (f : β → β) :
    (modifyOwn obj key f).map Prod.fst = obj.map Prod.fst := by
  induction obj with
  | nil => rfl
  | cons p obj ih =>
    have e : modifyOwn (p :: obj) key f =
        (if p.1 = key then (p.1, f p.2) else p) :: modifyOwn obj key f := rfl
    rw [e, List.map_cons, List.map_cons, ih]
    by_cases hp : p.1 = key
    · rw [if_pos hp]
    · rw [if_neg hp]

theorem getOwn_modifyOwn {β : Type} (obj : List (JSString × β)) (key k : JSString)
    (f : β → β) :
    getOwn (modifyOwn obj key f) k =
      if k = key then (getOwn obj key).map f else getOwn obj k := by
  induction obj with
  | nil => simp [getOwn, modifyOwn]
  | cons p obj ih =>
    have e : modifyOwn (p :: obj) key f =
        (if p.1 = key then (p.1, f p.2) else p) :: modifyOwn obj key f := rfl
    rw [e]
    by_cases hp : p.1 = key
    · by_cases hk : k = key
      · simp [getOwn, hp, hk]
      · have hpk : ¬ key = k := fun e => hk e.symm
        simp only [getOwn, hp, if_true, hpk, if_false, hk]
        simpa [hk] using ih
    · by_cases hk : k = key
      · simp only [getOwn, hp, if_false, hk, if_true]
        simpa [hk] using ih
      · by_cases hpk : p.1 = k
        · simp [getOwn, hp, hk, hpk]
        · simp only [getOwn, hp, if_false, hpk, hk]
          simpa [hk] using ih

theorem getOwn_eq_none_of_not_hasOwn {β : Type} (obj : List (JSString × β)) (key : JSString)
    (h : ¬ hasOwn obj key = true) : getOwn obj key = none := by
  induction obj with
  | nil => rfl
  | cons p obj ih =>
    simp only [hasOwn, Bool.or_eq_true, decide_eq_true_eq, not_or] at h
    simp only [getOwn, h.1, if_false]
    exact ih h.2

theorem getOwn_append_new {β : Type} (obj : List (JSString × β)) (key k : JSString) (v : β)
    (h : ¬ hasOwn obj key = true) :
    getOwn (obj ++ [(key, v)]) k = if k = key then some v else getOwn obj k := by
  induction obj with
  | nil =>
    by_cases hk : k = key
    · simp [getOwn, hk]
    · have : ¬ key = k := fun e => hk e.symm
      simp [getOwn, hk, this]
  | cons p obj ih =>
    simp only [hasOwn, Bool.or_eq_true, decide_eq_true_eq, not_or] at h
    have ih2 := ih h.2
    by_cases hpk : p.1 = k
    · have hk : ¬ k = key := fun e => h.1 (hpk.trans e)
      simp [getOwn, hpk, hk]
    · simp only [List.cons_append, getOwn, hpk, if_false]
      exact ih2

theorem getOwn_isSome_of_hasOwn {β : Type} (obj : List (JSString × β)) (key : JSString)
    (h : hasOwn obj key = true) : ∃ v, getOwn obj key = some v := by
  induction obj with
  | nil => simp [hasOwn] at h
  | cons p obj ih =>
    by_cases hp : p.1 = key
    · exact ⟨p.2, by simp [getOwn, hp]⟩
    · simp only [hasOwn, Bool.or_eq_true, decide_eq_true_eq, hp, false_or] at h
      obtain ⟨v, hv⟩ := ih h
      exact ⟨v, by simp [getOwn, hp, hv]⟩

theorem getOwn_setOwn {β : Type} (obj : List (JSString × β)) (key k : JSString) (v : β) :
    getOwn (setOwn obj key v) k = if k = key then some v else getOwn obj k := by
  unfold setOwn
  by_cases h : hasOwn obj key = true
  · rw [if_pos h, getOwn_modifyOwn]
    obtain ⟨w, hw⟩ := getOwn_isSome_of_hasOwn obj key h
    rw [hw]; rfl
  · rw [if_neg h, getOwn_append_new obj key k v h]

/-! ## Monthly roll-up: proofs -/

theorem setOf_append_singleton {α : Type} [DecidableEq α] (xs : List α) (x : α) :
    setOf (xs ++ [x]) = if x ∈ xs then setOf xs else setOf xs ++ [x] := by
  induction xs with
  | nil => simp [setOf]
  | cons a xs ih =>
    rw [List.cons_append]
    simp only [setOf]
    rw [ih]
    by_cases h : x ∈ xs
    · simp [h]
    · by_cases hxa : x = a
      · subst hxa
        simp [h, List.filter_append]
      · simp [h, hxa, List.filter_append]

theorem pairKey_inj (p q : JSString × JSString) (hl : p.2.length = q.2.length)
    (h : p.1 ++ '_' :: p.2 = q.1 ++ '_' :: q.2) : p = q := by
  have h2 := List.append_inj' h (by simp [hl])
  have h3 : p.2 = q.2 := by simpa using h2.2
  exact Prod.ext h2.1 h3

theorem monthOf_length (r : Record) (h : 7 ≤ r.Date.length) : (monthOf r).length = 7 := by
  simp [monthOf, List.length_take, h]

theorem specGroup_snoc {R : Rounding} (p : JSString × JSString) (rows : List Record) (r : Record) :
    specGroup R p (rows ++ [r]) = addRow R r (specGroup R p rows) := by
  simp [specGroup, addRow, sumField, List.foldl_append]

theorem specGroup_nil {R : Rounding} (r : Record) : specGroup R (groupPair r) [] = newGroup r := by
  simp [specGroup, newGroup, sumField, groupPair]

theorem rowsOf_snoc (pre : List Record) (r : Record) (p : JSString × JSString) :
    rowsOf (pre ++ [r]) p = if groupPair r = p then rowsOf pre p ++ [r] else rowsOf pre p := by
  by_cases h : groupPair r = p
  · simp [rowsOf, List.filter_append, h]
  · simp [rowsOf, List.filter_append, h]

theorem rowsOf_eq_nil (pre : List Record) (p : JSString × JSString)
    (h : p ∉ pre.map groupPair) : rowsOf pre p = [] := by
  simp only [rowsOf, List.filter_eq_nil_iff, decide_eq_true_eq]
  intro r hr e
  exact h (e ▸ List.mem_map_of_mem _ hr)

theorem pair_length_of_mem (pre : List Record) (H1 : ∀ x ∈ pre, 7 ≤ x.Date.length)
    (p : JSString × JSString) (hp : p ∈ setOf (pre.map groupPair)) : p.2.length = 7 := by
  rw [mem_setOf, List.mem_map] at hp
  obtain ⟨x, hx, rfl⟩ := hp
  exact monthOf_length x (H1 x hx)

theorem hasOwn_aggSpec {R : Rounding} (pre : List Record) (r : Record)
    (H1 : ∀ x ∈ pre ++ [r], 7 ≤ x.Date.length) :
    hasOwn (aggSpec R pre) (groupKey r) = true ↔ groupPair r ∈ pre.map groupPair := by
  have Hpre : ∀ x ∈ pre, 7 ≤ x.Date.length := fun x hx => H1 x (List.mem_append_left _ hx)
  have Hr : 7 ≤ r.Date.length := H1 r (by simp)
  rw [hasOwn_iff_mem_keys]
  simp only [aggSpec, List.map_map, List.mem_map, Function.comp]
  constructor
  · rintro ⟨p, hp, hk⟩
    have hl : p.2.length = (groupPair r).2.length := by
      rw [pair_length_of_mem pre Hpre p hp]
      exact (monthOf_length r Hr).symm
    have : p = groupPair r := pairKey_inj p (groupPair r) hl hk
    rw [← this]
    exact List.mem_map.1 ((mem_setOf _ _).1 hp)
  · intro h
    exact ⟨groupPair r, (mem_setOf _ _).2 (List.mem_map.2 h), rfl⟩

theorem aggregateRow_aggSpec {R : Rounding} (pre : List Record) (r : Record)
    (H1 : ∀ x ∈ pre ++ [r], 7 ≤ x.Date.length) (H2 : groupKey r ∉ objectPrototypeProps) :
    aggregateRow R (aggSpec R pre) r = aggSpec R (pre ++ [r]) := by
  have Hpre : ∀ x ∈ pre, 7 ≤ x.Date.length := fun x hx => H1 x (List.mem_append_left _ hx)
  have Hr : 7 ≤ r.Date.length := H1 r (by simp)
  have hkey : ∀ p ∈ setOf (pre.map groupPair),
      (p.1 ++ '_' :: p.2 = groupKey r ↔ p = groupPair r) := by
    intro p hp
    constructor
    · intro hk
      apply pairKey_inj p (groupPair r) _ hk
      rw [pair_length_of_mem pre Hpre p hp]
      exact (monthOf_length r Hr).symm
    · intro e; rw [e]; rfl
  unfold aggregateRow
  by_cases hmem : groupPair r ∈ pre.map groupPair
  · rw [if_pos ((hasOwn_aggSpec pre r H1).2 hmem)]
    simp only [aggSpec, modifyOwn, List.map_append, List.map_cons, List.map_nil, List.map_map]
    rw [setOf_append_singleton, if_pos hmem]
    apply List.map_congr_left
    intro p hp
    simp only [Function.comp]
    by_cases hk : p.1 ++ '_' :: p.2 = groupKey r
    · have hp2 : groupPair r = p := ((hkey p hp).1 hk).symm
      rw [if_pos hk, rowsOf_snoc, if_pos hp2, specGroup_snoc]
    · have hp2 : ¬ groupPair r = p := fun e => hk ((hkey p hp).2 e.symm)
      rw [if_neg hk, rowsOf_snoc, if_neg hp2]
  · have hown : ¬ hasOwn (aggSpec R pre) (groupKey r) = true :=
      fun h => hmem ((hasOwn_aggSpec pre r H1).1 h)
    rw [if_neg hown, if_neg H2]
    simp only [aggSpec, List.map_append, List.map_cons, List.map_nil]
    rw [setOf_append_singleton, if_neg hmem, List.map_append]
    congr 1
    · apply List.map_congr_left
      intro p hp
      have hp2 : ¬ groupPair r = p := fun e => hmem (e ▸ (mem_setOf _ _).1 hp)
      rw [rowsOf_snoc, if_neg hp2]
    · simp only [List.map_cons, List.map_nil]
      rw [rowsOf_snoc, if_pos rfl, rowsOf_eq_nil pre _ hmem, specGroup_snoc, specGroup_nil]
      rfl

theorem foldl_aggregateRow_aggSpec {R : Rounding} (rest pre : List Record)
    (H1 : ∀ x ∈ pre ++ rest, 7 ≤ x.Date.length)
    (H2 : ∀ x ∈ rest, groupKey x ∉ objectPrototypeProps) :
    rest.foldl (aggregateRow R) (aggSpec R pre) = aggSpec R (pre ++ rest) := by
  induction rest generalizing pre with
  | nil => simp
  | cons r rest ih =>
    have e : pre ++ r :: rest = (pre ++ [r]) ++ rest := by simp
    rw [List.foldl_cons, aggregateRow_aggSpec pre r
      (fun x hx => H1 x (by rw [e]; exact List.mem_append_left _ hx))
      (H2 r (List.mem_cons_self _ _)), e]
    apply ih
    · rw [← e]; exact H1
    · intro x hx; exact H2 x (List.mem_cons_of_mem _ hx)

theorem monthlyData_eq_spec {R : Rounding} (rawData : List Record)
    (H1 : ∀ r ∈ rawData, 7 ≤ r.Date.length)
    (H2 : ∀ r ∈ rawData, groupKey r ∉ objectPrototypeProps) :
    monthlyData R rawData = monthlySpec R rawData := by
  have h := @foldl_aggregateRow_aggSpec R rawData [] (by simpa using H1) H2
  have h0 : aggSpec R [] = [] := by simp [aggSpec, setOf]
  rw [h0, List.nil_append] at h
  unfold monthlyData monthlySpec
  rw [h]
  simp [aggSpec, List.map_map, Function.comp]

theorem sum_map_ite_eq_of_nodup (L : List (JSString × JSString)) (hL : L.Nodup)
    (P : JSString × JSString → Bool) (q : JSString × JSString) (hq : q ∈ L) (c : ℚ) :
    ((L.filter P).map (fun p => if q = p then c else 0)).sum = if P q = true then c else 0 := by
  induction L with
  | nil => simp at hq
  | cons a L ih =>
    rw [List.nodup_cons] at hL
    have hzero : ∀ M : List (JSString × JSString), q ∉ M →
        ((M.filter P).map (fun p => if q = p then c else 0)).sum = 0 := by
      intro M hM
      apply List.sum_eq_zero
      intro x hx
      rw [List.mem_map] at hx
      obtain ⟨p, hp, rfl⟩ := hx
      have : q ≠ p := fun e => hM (e ▸ (List.mem_filter.1 hp).1)
      simp [this]
    by_cases hqa : q = a
    · subst hqa
      by_cases hP : P q = true
      · simp [List.filter_cons, hP, hzero L hL.1]
      · simp [List.filter_cons, hP, hzero L hL.1]
    · have hq2 : q ∈ L := by
        rcases List.mem_cons.1 hq with h | h
        · exact absurd h hqa
        · exact h
      by_cases hP : P a = true
      · simp [List.filter_cons, hP, hqa, ih hL.2 hq2]
      · simp [List.filter_cons, hP, ih hL.2 hq2]

theorem sum_groups_eq (L : List (JSString × JSString)) (hL : L.Nodup) (s : JSString)
    (rows : List Record) (hrows : ∀ r ∈ rows, groupPair r ∈ L) :
    ((L.filter (fun p => decide (p.1 = s))).map
        (fun p => exactSum (fun r => r.Constrained_Plan) (rowsOf rows p))).sum =
      constrainedPlanOf s rows := by
  induction rows with
  | nil =>
    simp only [rowsOf, exactSum, constrainedPlanOf, List.filter_nil, List.map_nil, List.sum_nil]
    apply List.sum_eq_zero
    intro x hx
    rw [List.mem_map] at hx
    obtain ⟨p, -, rfl⟩ := hx
    rfl
  | cons r rows ih =>
    have ih2 := ih (fun x hx => hrows x (List.mem_cons_of_mem _ hx))
    have hr := hrows r (List.mem_cons_self _ _)
    have hsplit : ∀ p : JSString × JSString,
        exactSum (fun r => r.Constrained_Plan) (rowsOf (r :: rows) p) =
          (if groupPair r = p then numberOrZero r.Constrained_Plan else 0) +
            exactSum (fun r => r.Constrained_Plan) (rowsOf rows p) := by
      intro p
      by_cases h : groupPair r = p
      · simp [rowsOf, exactSum, List.filter_cons, h]
      · simp [rowsOf, exactSum, List.filter_cons, h]
    simp only [hsplit, List.sum_map_add]
    rw [ih2, sum_map_ite_eq_of_nodup L hL _ (groupPair r) hr]
    by_cases hs : r.SKU = s
    · simp [constrainedPlanOf, List.filter_cons, hs, groupPair]
    · simp [constrainedPlanOf, List.filter_cons, hs, groupPair]

theorem fl_zero (R : Rounding) : R.fl 0 = 0 := by
  have h := R.fl_int 0 (by norm_num)
  simpa using h

theorem fl_foldl (R : Rounding) (f : Record → JSValue) (rows : List Record) (acc : ℚ)
    (h : R.fl acc = acc) :
    R.fl (rows.foldl (fun acc r => R.fl (acc + numberOrZero (f r))) acc) =
      rows.foldl (fun acc r => R.fl (acc + numberOrZero (f r))) acc := by
  induction rows generalizing acc with
  | nil => exact h
  | cons r rows ih => exact ih _ (R.fl_idem _)

theorem fl_sumField (R : Rounding) (f : Record → JSValue) (rows : List Record) :
    R.fl (sumField R f rows) = sumField R f rows :=
  fl_foldl R f rows 0 (fl_zero R)

theorem sumField_singleton (R : Rounding) (f : Record → JSValue) (r : Record) :
    sumField R f [r] = R.fl (numberOrZero (f r)) := by
  simp [sumField]

theorem sum_abs_nonneg (f : Record → JSValue) (rows : List Record) :
    0 ≤ (rows.map (fun r => |numberOrZero (f r)|)).sum := by
  apply List.sum_nonneg
  intro x hx
  rw [List.mem_map] at hx
  obtain ⟨r, -, rfl⟩ := hx
  exact abs_nonneg _

theorem foldl_exact (R : Rounding) (f : Record → JSValue) (rows : List Record) (acc : ℚ)
    (hacc : ∃ n : ℤ, acc = (n : ℚ))
    (hint : ∀ r ∈ rows, ∃ k : ℤ, numberOrZero (f r) = (k : ℚ))
    (hb : |acc| + (rows.map (fun r => |numberOrZero (f r)|)).sum ≤ 2 ^ 53) :
    rows.foldl (fun acc r => R.fl (acc + numberOrZero (f r))) acc =
      acc + (rows.map (fun r => numberOrZero (f r))).sum := by
  induction rows generalizing acc with
  | nil => simp
  | cons r rows ih =>
    obtain ⟨n, hn⟩ := hacc
    obtain ⟨k, hk⟩ := hint r (List.mem_cons_self _ _)
    have hrest := sum_abs_nonneg f rows
    simp only [List.map_cons, List.sum_cons] at hb
    have hsum : |acc + numberOrZero (f r)| ≤ |acc| + |numberOrZero (f r)| := abs_add _ _
    have hcast : acc + numberOrZero (f r) = ((n + k : ℤ) : ℚ) := by
      rw [hn, hk]; push_cast; rfl
    have hle : |((n + k : ℤ) : ℚ)| ≤ 2 ^ 53 := by
      rw [← hcast]; linarith
    have hle2 : |n + k| ≤ 2 ^ 53 := by exact_mod_cast hle
    have hfl : R.fl (acc + numberOrZero (f r)) = acc + numberOrZero (f r) := by
      rw [hcast]; exact R.fl_int _ hle2
    simp only [List.foldl_cons, List.map_cons, List.sum_cons]
    rw [hfl, ih (acc + numberOrZero (f r)) ⟨n + k, hcast⟩
      (fun x hx => hint x (List.mem_cons_of_mem _ hx)) (by linarith)]
    ring

theorem sum_abs_filter_le (f : Record → JSValue) (P : Record → Bool) (rows : List Record) :
    ((rows.filter P).map (fun r => |numberOrZero (f r)|)).sum ≤
      (rows.map (fun r => |numberOrZero (f r)|)).sum := by
  induction rows with
  | nil => simp
  | cons r rows ih =>
    by_cases h : P r = true
    · simp only [List.filter_cons, h, if_true, List.map_cons, List.sum_cons]
      linarith
    · simp only [List.filter_cons, h, List.map_cons, List.sum_cons]
      have := abs_nonneg (numberOrZero (f r))
      simp only [Bool.false_eq_true, if_false]
      linarith

theorem sumField_rowsOf_exact (R : Rounding) (f : Record → JSValue) (rawData : List Record)
    (hint : ∀ r ∈ rawData, ∃ k : ℤ, numberOrZero (f r) = (k : ℚ))
    (hb : (rawData.map (fun r => |numberOrZero (f r)|)).sum ≤ 2 ^ 53)
    (p : JSString × JSString) :
    sumField R f (rowsOf rawData p) = exactSum f (rowsOf rawData p) := by
  unfold sumField exactSum
  rw [foldl_exact R f (rowsOf rawData p) 0 ⟨0, by simp⟩
    (fun r hr => hint r (List.mem_filter.1 hr).1)
    (by
      have := sum_abs_filter_le f (fun r => decide (groupPair r = p)) rawData
      simp only [abs_zero, zero_add]
      exact le_trans this hb)]
  simp

theorem constrainedPlanOf_monthlySpec (R : Rounding) (rawData : List Record)
    (hint : ∀ r ∈ rawData, ∃ k : ℤ, numberOrZero r.Constrained_Plan = (k : ℚ))
    (hb : (rawData.map (fun r => |numberOrZero r.Constrained_Plan|)).sum ≤ 2 ^ 53)
    (s : JSString) :
    constrainedPlanOf s (monthlySpec R rawData) = constrainedPlanOf s rawData := by
  rw [← sum_groups_eq (setOf (rawData.map groupPair)) (nodup_setOf _) s rawData
    (fun r hr => (mem_setOf _ _).2 (List.mem_map_of_mem _ hr))]
  simp only [constrainedPlanOf, monthlySpec, List.filter_map, List.map_map]
  congr 1
  apply List.map_congr_left
  intro p _
  simp only [Function.comp, Group.toRecord, specGroup, numberOrZero]
  exact sumField_rowsOf_exact R (fun r => r.Constrained_Plan) rawData hint hb p

theorem hasOwn_false_of_keys {β : Type} (obj : List (JSString × β)) (key : JSString)
    (h : ∀ p ∈ obj, p.1 ≠ key) : hasOwn obj key = false := by
  cases hh : hasOwn obj key with
  | false => rfl
  | true =>
    rw [hasOwn_iff_mem_keys, List.mem_map] at hh
    obtain ⟨p, hp, e⟩ := hh
    exact absurd e (h p hp)

theorem aggregateRow_keys {R : Rounding} (agg : List (JSString × Group)) (r : Record)
    (h : ∀ p ∈ agg, p.1 ∉ objectPrototypeProps) :
    ∀ p ∈ aggregateRow R agg r, p.1 ∉ objectPrototypeProps := by
  unfold aggregateRow
  split
  · intro p hp
    simp only [modifyOwn, List.mem_map] at hp
    obtain ⟨q, hq, rfl⟩ := hp
    split
    · exact h q hq
    · exact h q hq
  · split
    · exact h
    · rename_i hk
      intro p hp
      rcases List.mem_append.1 hp with hp | hp
      · exact h p hp
      · rw [List.mem_singleton] at hp
        rw [hp]; exact hk

theorem foldl_aggregateRow_filter {R : Rounding} (rawData : List Record) (agg : List (JSString × Group))
    (h : ∀ p ∈ agg, p.1 ∉ objectPrototypeProps) :
    rawData.foldl (aggregateRow R) agg =
      (rawData.filter (fun r => decide (groupKey r ∉ objectPrototypeProps))).foldl
        (aggregateRow R) agg := by
  induction rawData generalizing agg with
  | nil => rfl
  | cons r rest ih =>
    by_cases hk : groupKey r ∈ objectPrototypeProps
    · have hno : hasOwn agg (groupKey r) = false :=
        hasOwn_false_of_keys agg _ (fun p hp e => h p hp (e ▸ hk))
      have hs : aggregateRow R agg r = agg := by
        unfold aggregateRow
        rw [hno]
        simp [hk]
      rw [List.foldl_cons, hs, ih agg h]
      simp [List.filter_cons, hk]
    · rw [List.foldl_cons, ih _ (aggregateRow_keys agg r h)]
      simp [List.filter_cons, hk]

theorem monthlyData_filter {R : Rounding} (rawData : List Record) :
    monthlyData R rawData =
      monthlyData R (rawData.filter (fun r => decide (groupKey r ∉ objectPrototypeProps))) := by
  unfold monthlyData
  rw [foldl_aggregateRow_filter rawData [] (by simp)]

theorem filter_map_eq_singleton (L : List (JSString × JSString)) (hL : L.Nodup)
    (f : JSString × JSString → Record) (hf : ∀ q ∈ L, groupPair (f q) = q)
    (p : JSString × JSString) (hp : p ∈ L) :
    rowsOf (L.map f) p = [f p] := by
  induction L with
  | nil => simp at hp
  | cons a L ih =>
    rw [List.nodup_cons] at hL
    have hfa := hf a (List.mem_cons_self _ _)
    have hfL : ∀ q ∈ L, groupPair (f q) = q := fun q hq => hf q (List.mem_cons_of_mem _ hq)
    by_cases hpa : p = a
    · subst hpa
      have hnil : rowsOf (L.map f) p = [] := by
        apply rowsOf_eq_nil
        intro hm
        rw [List.map_map, List.mem_map] at hm
        obtain ⟨q, hq, e⟩ := hm
        simp only [Function.comp] at e
        rw [hfL q hq] at e
        exact hL.1 (e ▸ hq)
      have : rowsOf (List.map f (p :: L)) p = f p :: rowsOf (L.map f) p := by
        simp [rowsOf, List.filter_cons, hfa]
      rw [this, hnil]
    · have hp2 : p ∈ L := by
        rcases List.mem_cons.1 hp with h | h
        · exact absurd h hpa
        · exact h
      have hne : ¬ groupPair (f a) = p := by rw [hfa]; exact fun e => hpa e.symm
      have : rowsOf (List.map f (a :: L)) p = rowsOf (L.map f) p := by
        simp [rowsOf, List.filter_cons, hne]
      rw [this, ih hL.2 hfL hp2]

theorem monthlySpec_idempotent {R : Rounding} (d : List Record) (H1 : ∀ r ∈ d, 7 ≤ r.Date.length) :
    monthlySpec R (monthlySpec R d) = monthlySpec R d := by
  have hL := nodup_setOf (d.map groupPair)
  have hf : ∀ q ∈ setOf (d.map groupPair),
      groupPair ((specGroup R q (rowsOf d q)).toRecord) = q := by
    intro q hq
    have hl := pair_length_of_mem d H1 q hq
    simp only [groupPair, monthOf, Group.toRecord, specGroup]
    rw [List.take_of_length_le (le_of_eq hl)]
  have hpairs : (monthlySpec R d).map groupPair = setOf (d.map groupPair) := by
    unfold monthlySpec
    rw [List.map_map]
    conv_rhs => rw [← List.map_id (setOf (d.map groupPair))]
    apply List.map_congr_left
    intro q hq
    exact hf q hq
  have e : ∀ x : List Record, monthlySpec R x =
      (setOf (x.map groupPair)).map (fun p => (specGroup R p (rowsOf x p)).toRecord) :=
    fun _ => rfl
  rw [e (monthlySpec R d), hpairs, setOf_eq_self_of_nodup _ hL]
  conv_rhs => rw [e d]
  apply List.map_congr_left
  intro p hp
  have hrows : rowsOf (monthlySpec R d) p = [(specGroup R p (rowsOf d p)).toRecord] := by
    unfold monthlySpec
    exact filter_map_eq_singleton _ hL _ hf p hp
  rw [hrows]
  simp only [specGroup, Group.toRecord, sumField_singleton, numberOrZero, fl_sumField]

theorem monthlySpec_dates {R : Rounding} (d : List Record) (H1 : ∀ r ∈ d, 7 ≤ r.Date.length) :
    ∀ r ∈ monthlySpec R d, 7 ≤ r.Date.length := by
  intro r hr
  simp only [monthlySpec, List.mem_map] at hr
  obtain ⟨p, hp, rfl⟩ := hr
  simp only [Group.toRecord, specGroup]
  exact le_of_eq (pair_length_of_mem d H1 p hp).symm

theorem monthlySpec_keys {R : Rounding} (d : List Record) (H1 : ∀ r ∈ d, 7 ≤ r.Date.length)
    (H2 : ∀ r ∈ d, groupKey r ∉ objectPrototypeProps) :
    ∀ r ∈ monthlySpec R d, groupKey r ∉ objectPrototypeProps := by
  intro r hr
  simp only [monthlySpec, List.mem_map] at hr
  obtain ⟨p, hp, rfl⟩ := hr
  have hl := pair_length_of_mem d H1 p hp
  rw [mem_setOf, List.mem_map] at hp
  obtain ⟨x, hx, rfl⟩ := hp
  have : groupKey ((specGroup R (groupPair x) (rowsOf d (groupPair x))).toRecord) = groupKey x := by
    simp [groupKey, monthOf, Group.toRecord, specGroup, groupPair, List.take_take]
  rw [this]
  exact H2 x hx

/-- C10: when every Date has at least 7 characters, the monthly roll-up of a monthly
roll-up is that roll-up, record for record and in the same order. -/
theorem monthly_idempotent (R : Rounding) (rawData : List Record)
    (H1 : ∀ r ∈ rawData, 7 ≤ r.Date.length) :
    updateTableBucket R "monthly" (updateTableBucket R "monthly" rawData) =
      updateTableBucket R "monthly" rawData := by
  have hb : ∀ d, updateTableBucket R "monthly" d = monthlyData R d := by
    intro d; unfold updateTableBucket; rw [if_neg (by decide)]
  rw [hb, hb, monthlyData_filter rawData]
  have G1 : ∀ r ∈ rawData.filter (fun r => decide (groupKey r ∉ objectPrototypeProps)),
      7 ≤ r.Date.length := fun r hr => H1 r (List.mem_filter.1 hr).1
  have G2 : ∀ r ∈ rawData.filter (fun r => decide (groupKey r ∉ objectPrototypeProps)),
      groupKey r ∉ objectPrototypeProps := fun r hr => by
    simpa using (List.mem_filter.1 hr).2
  rw [monthlyData_eq_spec _ G1 G2,
    monthlyData_eq_spec _ (monthlySpec_dates _ G1) (monthlySpec_keys _ G1 G2)]
  exact monthlySpec_idempotent _ G1

/-! ## String order and sorting -/

theorem strLe_refl (a : JSString) : strLe a a = true := by
  induction a with
  | nil => rfl
  | cons x xs ih => simp [strLe, ih]

theorem strLe_total (a b : JSString) : strLe a b = true ∨ strLe b a = true := by
  induction a generalizing b with
  | nil => left; rfl
  | cons x xs ih =>
    cases b with
    | nil => right; rfl
    | cons y ys =>
      by_cases h : x = y
      · subst h
        simpa [strLe] using ih ys
      · have h2 : ¬ y = x := fun e => h e.symm
        simp only [strLe, h, h2, if_false, decide_eq_true_eq]
        rcases lt_trichotomy x y with h3 | h3 | h3
        · exact Or.inl h3
        · exact absurd h3 h
        · exact Or.inr h3

theorem strLe_trans (a b c : JSString) (hab : strLe a b = true) (hbc : strLe b c = true) :
    strLe a c = true := by
  induction a generalizing b c with
  | nil => rfl
  | cons x xs ih =>
    cases b with
    | nil => simp [strLe] at hab
    | cons y ys =>
      cases c with
      | nil => simp [strLe] at hbc
      | cons z zs =>
        by_cases hxy : x = y
        · subst hxy
          by_cases hxz : x = z
          · subst hxz
            simp only [strLe, if_true] at hab hbc ⊢
            exact ih ys zs hab hbc
          · simp only [strLe, hxz, if_false] at hbc ⊢
            exact hbc
        · simp only [strLe, hxy, if_false, decide_eq_true_eq] at hab
          by_cases hyz : y = z
          · subst hyz
            simp only [strLe, hxy, if_false, decide_eq_true_eq]
            exact hab
          · simp only [strLe, hyz, if_false, decide_eq_true_eq] at hbc
            have hxz : x < z := lt_trans hab hbc
            have hne : ¬ x = z := ne_of_lt hxz
            simp only [strLe, hne, if_false, decide_eq_true_eq]
            exact hxz

theorem strLe_antisymm (a b : JSString) (hab : strLe a b = true) (hba : strLe b a = true) :
    a = b := by
  induction a generalizing b with
  | nil =>
    cases b with
    | nil => rfl
    | cons y ys => simp [strLe] at hba
  | cons x xs ih =>
    cases b with
    | nil => simp [strLe] at hab
    | cons y ys =>
      by_cases hxy : x = y
      · subst hxy
        simp only [strLe, if_true] at hab hba
        rw [ih ys hab hba]
      · have hyx : ¬ y = x := fun e => hxy e.symm
        simp only [strLe, hxy, hyx, if_false, decide_eq_true_eq] at hab hba
        exact absurd hab (lt_asymm hba)

theorem sortStrings_perm (xs : List JSString) : (sortStrings xs).Perm xs :=
  List.perm_insertionSort _ xs

theorem mem_sortStrings (xs : List JSString) (a : JSString) : a ∈ sortStrings xs ↔ a ∈ xs :=
  (sortStrings_perm xs).mem_iff

theorem sortStrings_sorted (xs : List JSString) :
    (sortStrings xs).Sorted (fun a b => strLe a b = true) := by
  haveI : IsTotal JSString (fun a b => strLe a b = true) := ⟨strLe_total⟩
  haveI : IsTrans JSString (fun a b => strLe a b = true) := ⟨strLe_trans⟩
  exact List.sorted_insertionSort _ xs

theorem sortStrings_strict (xs : List JSString) (h : xs.Nodup) :
    (sortStrings xs).Sorted (fun a b => strLt a b = true) := by
  have h1 := sortStrings_sorted xs
  have h2 : (sortStrings xs).Nodup := (sortStrings_perm xs).nodup_iff.2 h
  unfold List.Sorted at h1 ⊢
  have h3 := h1.and h2
  refine h3.imp ?_
  intro a b hab
  have hne : a ≠ b := hab.2
  simp only [strLt, Bool.and_eq_true, Bool.not_eq_true', hab.1, true_and]
  cases hba : strLe b a with
  | false => rfl
  | true => exact absurd (strLe_antisymm a b hab.1 hba) hne

/-! ## The grouping loop of `renderTable` -/

theorem lastRecord_cons (row : Record) (rest : List Record) (sku date : JSString) :
    lastRecord (row :: rest) sku date =
      match lastRecord rest sku date with
      | some r => some r
      | none => if row.SKU = sku ∧ row.Date = date then some row else none := by
  unfold lastRecord
  rw [List.reverse_cons, List.find?_append]
  cases h : List.find? (fun r => decide (r.SKU = sku ∧ r.Date = date)) rest.reverse with
  | some r => rfl
  | none =>
    by_cases hp : row.SKU = sku ∧ row.Date = date
    · simp [List.find?_cons, hp]
    · simp [List.find?_cons, hp]

theorem lastRecord_some (data : List Record) (sku date : JSString) (r : Record)
    (h : lastRecord data sku date = some r) : r ∈ data ∧ r.SKU = sku ∧ r.Date = date := by
  unfold lastRecord at h
  have h1 := List.find?_some h
  have h2 := List.mem_of_find?_eq_some h
  simp only [decide_eq_true_eq] at h1
  exact ⟨List.mem_reverse.1 h2, h1⟩

theorem lastRecord_none (data : List Record) (sku date : JSString)
    (h : lastRecord data sku date = none) : ∀ r ∈ data, ¬ (r.SKU = sku ∧ r.Date = date) := by
  unfold lastRecord at h
  rw [List.find?_eq_none] at h
  intro r hr
  simpa using h r (List.mem_reverse.2 hr)

/-- The step of the grouping loop on a SKU that is not an inherited name. -/
theorem groupRow_plain (G : List (JSString × List (JSString × Record))) (row : Record)
    (h : row.SKU ∉ objectPrototypeProps) :
    groupRow { skuGroups := G, prototypeProps := [] } row =
      some { skuGroups :=
               if hasOwn G row.SKU then
                 modifyOwn G row.SKU (fun skuData => setOwn skuData row.Date row)
               else G ++ [(row.SKU, setOwn [] row.Date row)],
             prototypeProps := [] } := by
  have h1 : row.SKU ≠ "__proto__".toList := by
    intro e; apply h; rw [e]; decide
  have h2 : row.SKU ≠ "constructor".toList := by
    intro e; apply h; rw [e]; decide
  unfold groupRow
  by_cases ho : hasOwn G row.SKU = true
  · simp only [ho, if_true]
  · have hp : ¬ hasOwn ([] : List (JSString × Record)) row.SKU = true := by simp [hasOwn]
    simp only [ho, if_false]
    rw [if_neg hp, if_neg h1, if_neg h2, if_neg h]
    simp only [Bool.false_eq_true, if_false]

theorem groupEntry_step (G : List (JSString × List (JSString × Record))) (row : Record)
    (sku date : JSString) :
    groupEntry (if hasOwn G row.SKU then
        modifyOwn G row.SKU (fun skuData => setOwn skuData row.Date row)
      else G ++ [(row.SKU, setOwn [] row.Date row)]) sku date =
      if row.SKU = sku ∧ row.Date = date then some row else groupEntry G sku date := by
  unfold groupEntry
  by_cases ho : hasOwn G row.SKU = true
  · rw [if_pos ho, getOwn_modifyOwn]
    obtain ⟨inner, hi⟩ := getOwn_isSome_of_hasOwn G row.SKU ho
    by_cases hs : sku = row.SKU
    · subst hs
      rw [if_pos rfl, hi]
      simp only [Option.map_some', Option.getD_some, getOwn_setOwn, true_and]
      by_cases hd : date = row.Date
      · simp [hd]
      · have : ¬ row.Date = date := fun e => hd e.symm
        simp [hd, this]
    · have : ¬ row.SKU = sku := fun e => hs e.symm
      simp [hs, this]
  · rw [if_neg ho, getOwn_append_new G row.SKU sku _ ho]
    by_cases hs : sku = row.SKU
    · subst hs
      rw [if_pos rfl, getOwn_eq_none_of_not_hasOwn G row.SKU ho]
      simp only [Option.getD_some, Option.getD_none, getOwn_setOwn, true_and]
      by_cases hd : date = row.Date
      · simp [hd]
      · have : ¬ row.Date = date := fun e => hd e.symm
        simp [hd, this]
    · have : ¬ row.SKU = sku := fun e => hs e.symm
      simp [hs, this]

theorem keys_step (G : List (JSString × List (JSString × Record))) (row : Record) :
    (if hasOwn G row.SKU then
        modifyOwn G row.SKU (fun skuData => setOwn skuData row.Date row)
      else G ++ [(row.SKU, setOwn [] row.Date row)]).map Prod.fst =
      if hasOwn G row.SKU then G.map Prod.fst else G.map Prod.fst ++ [row.SKU] := by
  by_cases ho : hasOwn G row.SKU = true
  · rw [if_pos ho, if_pos ho, keys_modifyOwn]
  · rw [if_neg ho, if_neg ho, List.map_append]; rfl

theorem buildGroups_plain (data : List Record) (G : List (JSString × List (JSString × Record)))
    (H3 : ∀ r ∈ data, r.SKU ∉ objectPrototypeProps) (hG : (G.map Prod.fst).Nodup) :
    ∃ G', buildGroups data { skuGroups := G, prototypeProps := [] } =
        some { skuGroups := G', prototypeProps := [] } ∧
      (G'.map Prod.fst).Nodup ∧
      (∀ k, k ∈ G'.map Prod.fst ↔ k ∈ G.map Prod.fst ∨ ∃ r ∈ data, r.SKU = k) ∧
      ∀ sku date, groupEntry G' sku date =
        match lastRecord data sku date with
        | some r => some r
        | none => groupEntry G sku date := by
  induction data generalizing G with
  | nil =>
    refine ⟨G, rfl, hG, ?_, fun sku date => rfl⟩
    intro k
    exact ⟨Or.inl, fun h => h.elim id (fun ⟨r, hr, _⟩ => absurd hr (List.not_mem_nil r))⟩
  | cons row rest ih =>
    have hrow := H3 row (List.mem_cons_self _ _)
    have hrest : ∀ r ∈ rest, r.SKU ∉ objectPrototypeProps :=
      fun r hr => H3 r (List.mem_cons_of_mem _ hr)
    have hkeys := keys_step G row
    generalize hG1 : (if hasOwn G row.SKU then
        modifyOwn G row.SKU (fun skuData => setOwn skuData row.Date row)
      else G ++ [(row.SKU, setOwn [] row.Date row)]) = G1 at hkeys
    have hstep : groupRow { skuGroups := G, prototypeProps := [] } row =
        some { skuGroups := G1, prototypeProps := [] } := by
      rw [groupRow_plain G row hrow, hG1]
    have hentry : ∀ sku date, groupEntry G1 sku date =
        if row.SKU = sku ∧ row.Date = date then some row else groupEntry G sku date := by
      intro sku date; rw [← hG1]; exact groupEntry_step G row sku date
    have hnd : (G1.map Prod.fst).Nodup := by
      rw [hkeys]
      by_cases ho : hasOwn G row.SKU = true
      · rw [if_pos ho]; exact hG
      · rw [if_neg ho]
        have : row.SKU ∉ G.map Prod.fst := fun hm => ho ((hasOwn_iff_mem_keys G _).2 hm)
        refine List.Nodup.append hG (List.nodup_singleton _) ?_
        intro x hx hx2
        rw [List.mem_singleton] at hx2
        exact this (hx2 ▸ hx)
    have hmem : ∀ k, k ∈ G1.map Prod.fst ↔ k ∈ G.map Prod.fst ∨ k = row.SKU := by
      intro k
      rw [hkeys]
      by_cases ho : hasOwn G row.SKU = true
      · rw [if_pos ho]
        constructor
        · exact Or.inl
        · rintro (h | h)
          · exact h
          · rw [h]; exact (hasOwn_iff_mem_keys G _).1 ho
      · rw [if_neg ho, List.mem_append, List.mem_singleton]
    obtain ⟨G', h1, h2, h3, h4⟩ := ih G1 hrest hnd
    refine ⟨G', ?_, h2, ?_, ?_⟩
    · simp only [buildGroups, hstep]
      exact h1
    · intro k
      rw [h3, hmem]
      simp only [List.mem_cons, exists_eq_or_imp]
      constructor
      · rintro ((h | h) | h)
        · exact Or.inl h
        · exact Or.inr (Or.inl h.symm)
        · exact Or.inr (Or.inr h)
      · rintro (h | h | h)
        · exact Or.inl (Or.inl h)
        · exact Or.inl (Or.inr h.symm)
        · exact Or.inr h
    · intro sku date
      rw [h4, lastRecord_cons, hentry]
      cases lastRecord rest sku date with
      | some r => rfl
      | none =>
        by_cases hp : row.SKU = sku ∧ row.Date = date
        · simp [hp]
        · simp only [hp, if_false]

/-! ## The pivot table -/

theorem allDates_sorted (data : List Record) :
    (allDates data).Sorted (fun a b => strLt a b = true) :=
  sortStrings_strict _ (nodup_setOf _)

theorem mem_allDates (data : List Record) (d : JSString) :
    d ∈ allDates data ↔ ∃ r ∈ data, r.Date = d := by
  unfold allDates
  rw [mem_sortStrings, mem_setOf, List.mem_map]

theorem length_sort_setOf (xs : List JSString) :
    (sortStrings (setOf xs)).length = xs.toFinset.card := by
  rw [(sortStrings_perm _).length_eq, ← List.toFinset_card_of_nodup (nodup_setOf xs)]
  congr 1
  exact List.toFinset.ext (fun x => mem_setOf xs x)

theorem length_sortStrings_of_nodup (keys xs : List JSString) (hk : keys.Nodup)
    (hm : ∀ k, k ∈ keys ↔ k ∈ xs) : (sortStrings keys).length = xs.toFinset.card := by
  rw [(sortStrings_perm _).length_eq, ← List.toFinset_card_of_nodup hk]
  congr 1
  exact List.toFinset.ext hm

/-- On data none of whose SKUs is an inherited name, `renderTable` draws the pivot
table of the specification. -/
theorem renderTable_plain (data : List Record) (hne : data ≠ [])
    (H3 : ∀ r ∈ data, r.SKU ∉ objectPrototypeProps) :
    ∃ skus : List JSString,
      renderTable data = Rendered.table (allDates data) (pivotRows data (allDates data) skus) ∧
      skus.Sorted (fun a b => strLt a b = true) ∧
      (∀ k, k ∈ skus ↔ ∃ r ∈ data, r.SKU = k) ∧
      skus.length = (data.map (fun r => r.SKU)).toFinset.card := by
  obtain ⟨G, h1, h2, h3, h4⟩ := buildGroups_plain data [] H3 (by simp)
  have hmem : ∀ k, k ∈ G.map Prod.fst ↔ ∃ r ∈ data, r.SKU = k := by
    intro k
    rw [h3 k]
    constructor
    · rintro (h | h)
      · exact absurd h (List.not_mem_nil k)
      · exact h
    · exact Or.inr
  have hentry : ∀ sku date, groupEntry G sku date = lastRecord data sku date := by
    intro sku date
    rw [h4]
    cases lastRecord data sku date <;> rfl
  have hlen : ¬ data.length = 0 := fun e => hne (List.length_eq_zero.1 e)
  refine ⟨sortStrings (G.map Prod.fst), ?_, sortStrings_strict _ h2, ?_, ?_⟩
  · unfold renderTable
    rw [if_neg hlen]
    have hinit : PivotState.init = { skuGroups := [], prototypeProps := [] } := rfl
    rw [hinit, h1]
    simp only [pivotRows, skuRows]
    congr 1
    apply List.flatMap_congr
    intro sku _
    apply List.map_congr_left
    intro metric _
    congr 1
    apply List.map_congr_left
    intro date _
    have hr : readDate { skuGroups := G, prototypeProps := [] }
        ((getOwn G sku).getD []) date = groupEntry G sku date := by
      unfold readDate groupEntry
      cases getOwn ((getOwn G sku).getD []) date <;> rfl
    rw [hr, hentry]
  · intro k
    rw [mem_sortStrings, hmem]
  · apply length_sortStrings_of_nodup _ _ h2
    intro k
    rw [hmem, List.mem_map]

/-! ## Cell text -/

theorem toDigitsCore_suffix (b fuel n : Nat) (ds : List Char) :
    ∃ pre, Nat.toDigitsCore b fuel n ds = pre ++ ds := by
  induction fuel generalizing n ds with
  | zero => exact ⟨[], rfl⟩
  | succ fuel ih =>
    simp only [Nat.toDigitsCore]
    split
    · exact ⟨[Nat.digitChar (n % b)], rfl⟩
    · obtain ⟨pre, hpre⟩ := ih (n / b) (Nat.digitChar (n % b) :: ds)
      exact ⟨pre ++ [Nat.digitChar (n % b)], by rw [hpre]; simp⟩

theorem toDigits_last (n : Nat) :
    ∃ pre, Nat.toDigits 10 n = pre ++ [Nat.digitChar (n % 10)] := by
  unfold Nat.toDigits
  simp only [Nat.toDigitsCore]
  split
  · exact ⟨[], rfl⟩
  · exact toDigitsCore_suffix 10 n (n / 10) [Nat.digitChar (n % 10)]

theorem digitChar_ne_minus (n : Nat) : Nat.digitChar (n % 10) ≠ '-' := by
  have h : n % 10 < 10 := Nat.mod_lt _ (by decide)
  interval_cases (n % 10) <;> decide

theorem toDigits_ne_nil (n : Nat) : Nat.toDigits 10 n ≠ [] := by
  obtain ⟨pre, h⟩ := toDigits_last n
  rw [h]; simp

theorem toDigits_ne_minus (n : Nat) : Nat.toDigits 10 n ≠ ['-'] := by
  obtain ⟨pre, h⟩ := toDigits_last n
  rw [h]
  intro e
  cases pre with
  | nil =>
    simp only [List.nil_append, List.cons.injEq, and_true] at e
    exact digitChar_ne_minus n e
  | cons c pre =>
    simp only [List.cons_append, List.cons.injEq] at e
    have := e.2
    simp at this

theorem toFixed0_ne_placeholder (q : ℚ) : toFixed0 q ≠ placeholder := by
  unfold toFixed0 placeholder
  split
  · intro e; cases e
  · intro e
    have e2 := CellText.text.inj e
    by_cases hq : q < 0
    · rw [if_pos hq] at e2
      simp only [List.singleton_append, List.cons.injEq, true_and] at e2
      exact toDigits_ne_nil _ e2
    · rw [if_neg hq, List.nil_append] at e2
      exact toDigits_ne_minus _ e2

theorem toFixed0_zero : toFixed0 0 = CellText.text ['0'] := by
  unfold toFixed0
  rw [if_neg (by norm_num)]
  norm_num
  rfl

theorem toFixed0_rounds (q : ℚ) (h : |q| < (10 : ℚ) ^ 21) :
    ∃ n : Nat, abs ((n : ℚ) - abs q) ≤ 1 / 2 ∧
      toFixed0 q = CellText.text ((if q < 0 then ['-'] else []) ++ Nat.toDigits 10 n) := by
  refine ⟨⌊|q| + 1 / 2⌋.toNat, ?_, ?_⟩
  · have hnn : (0 : ℤ) ≤ ⌊|q| + 1 / 2⌋ := by
      apply Int.floor_nonneg.2
      have := abs_nonneg q
      linarith
    have hcast : ((⌊|q| + 1 / 2⌋.toNat : ℕ) : ℚ) = ((⌊|q| + 1 / 2⌋ : ℤ) : ℚ) := by
      have := Int.toNat_of_nonneg hnn
      exact_mod_cast congrArg (fun z : ℤ => (z : ℚ)) this
    rw [hcast, abs_le]
    have h1 := Int.floor_le (|q| + 1 / 2)
    have h2 := Int.lt_floor_add_one (|q| + 1 / 2)
    constructor <;> linarith
  · unfold toFixed0
    rw [if_neg (not_le.2 h)]

/-! ## Pivot table and filter: the properties of the specification -/

/-- Axes of the pivot table on data none of whose SKUs is a name inherited from
`Object.prototype`: the columns are the distinct Dates in ascending string order,
the row groups the distinct SKUs in ascending string order, each with its three
metric rows in the fixed order, every row with one cell per column. -/
theorem renderTable_axes (data : List Record) (hne : data ≠ [])
    (H3 : ∀ r ∈ data, r.SKU ∉ objectPrototypeProps) :
    ∃ (cols skus : List JSString) (rows : List Row),
      renderTable data = Rendered.table cols rows ∧
      cols.Sorted (fun a b => strLt a b = true) ∧
      (∀ d, d ∈ cols ↔ ∃ r ∈ data, r.Date = d) ∧
      cols.length = (data.map (fun r => r.Date)).toFinset.card ∧
      skus.Sorted (fun a b => strLt a b = true) ∧
      (∀ k, k ∈ skus ↔ ∃ r ∈ data, r.SKU = k) ∧
      skus.length = (data.map (fun r => r.SKU)).toFinset.card ∧
      rows.map (fun row => (row.sku, row.label)) = skus.flatMap metricRowsOf ∧
      ∀ row ∈ rows, row.cells.length = cols.length := by
  obtain ⟨skus, h1, h2, h3, h4⟩ := renderTable_plain data hne H3
  refine ⟨allDates data, skus, pivotRows data (allDates data) skus, h1, allDates_sorted data,
    mem_allDates data, length_sort_setOf _, h2, h3, h4, ?_, ?_⟩
  · simp only [pivotRows, List.map_flatMap]
    apply List.flatMap_congr
    intro sku _
    rfl
  · intro row hrow
    simp only [pivotRows, List.mem_flatMap, List.mem_map] at hrow
    obtain ⟨sku, -, metric, -, rfl⟩ := hrow
    simp

/-- Cells of the pivot table on data none of whose SKUs is a name inherited from
`Object.prototype`: every row belongs to a metric, and its cell under a column date
is the text of that metric in the last record with the row SKU and that date, the
placeholder when there is none. -/
theorem renderTable_cells (data : List Record) (hne : data ≠ [])
    (H3 : ∀ r ∈ data, r.SKU ∉ objectPrototypeProps) :
    ∃ (cols : List JSString) (rows : List Row),
      renderTable data = Rendered.table cols rows ∧
      ∀ row ∈ rows, ∃ metric : Metric, row.label = metric.label ∧
        row.cells = cols.map (fun date => cellText (lastRecord data row.sku date) metric) := by
  obtain ⟨skus, h1, -, -, -⟩ := renderTable_plain data hne H3
  refine ⟨allDates data, pivotRows data (allDates data) skus, h1, ?_⟩
  intro row hrow
  simp only [pivotRows, List.mem_flatMap, List.mem_map] at hrow
  obtain ⟨sku, -, metric, -, rfl⟩ := hrow
  exact ⟨metric, rfl, rfl⟩

/-- What `cellText` shows: the placeholder for no record and for a metric that is
`null` or `undefined`; for a number the text of `toFixed(0)`, which is never the
placeholder, is `0` for the value 0, and below `10^21` in magnitude is the sign and
the digits of an integer at distance at most one half. -/
theorem cellText_spec (metric : Metric) :
    cellText none metric = placeholder ∧
    (∀ r, metric.key r = JSValue.null ∨ metric.key r = JSValue.undefined →
      cellText (some r) metric = placeholder) ∧
    (∀ r q, metric.key r = JSValue.num q →
      cellText (some r) metric = toFixed0 q ∧ cellText (some r) metric ≠ placeholder) ∧
    toFixed0 0 = CellText.text ['0'] ∧
    (∀ q : ℚ, |q| < (10 : ℚ) ^ 21 → ∃ n : Nat, abs ((n : ℚ) - abs q) ≤ 1 / 2 ∧
      toFixed0 q = CellText.text ((if q < 0 then ['-'] else []) ++ Nat.toDigits 10 n)) := by
  refine ⟨rfl, ?_, ?_, toFixed0_zero, toFixed0_rounds⟩
  · intro r h
    rcases h with h | h
    · simp [cellText, h]
    · simp [cellText, h]
  · intro r q h
    have e : cellText (some r) metric = toFixed0 q := by simp [cellText, h]
    exact ⟨e, by rw [e]; exact toFixed0_ne_placeholder q⟩

theorem includes_iff_contiguous (s sub : JSString) : includes s sub = true ↔ sub <:+: s := by
  unfold includes
  rw [List.any_eq_true, List.infix_iff_prefix_suffix]
  constructor
  · rintro ⟨t, ht, hp⟩
    exact ⟨t, List.isPrefixOf_iff_prefix.1 hp, (List.mem_tails t s).1 ht⟩
  · rintro ⟨t, hp, ht⟩
    exact ⟨t, (List.mem_tails t s).2 ht, List.isPrefixOf_iff_prefix.2 hp⟩

theorem filterTable_eq_filter (toLowerCase : JSString → JSString) (filterValue : JSString)
    (rawData : List Record) :
    filterTable toLowerCase filterValue rawData =
      rawData.filter (fun row => decide (toLowerCase filterValue <:+: toLowerCase row.SKU)) := by
  unfold filterTable
  apply List.filter_congr
  intro row _
  cases h : includes (toLowerCase row.SKU) (toLowerCase filterValue) with
  | true => exact (decide_eq_true ((includes_iff_contiguous _ _).1 h)).symm
  | false =>
    have : ¬ toLowerCase filterValue <:+: toLowerCase row.SKU := by
      intro hi
      rw [(includes_iff_contiguous _ _).2 hi] at h
      exact Bool.noConfusion h
    exact (decide_eq_false this).symm

theorem filterTable_empty (toLowerCase : JSString → JSString) (rawData : List Record)
    (h : toLowerCase [] = []) : filterTable toLowerCase [] rawData = rawData := by
  rw [filterTable_eq_filter, h]
  apply List.filter_eq_self.2
  intro row _
  exact decide_eq_true List.nil_infix

theorem filterTable_example :
    filterTable asciiLower "sku_00".toList
        [planRecord "SKU_001" "2024-01-07" JSValue.null,
         planRecord "SKU_002" "2024-01-07" JSValue.null,
         planRecord "OTHER" "2024-01-07" JSValue.null] =
      [planRecord "SKU_001" "2024-01-07" JSValue.null,
       planRecord "SKU_002" "2024-01-07" JSValue.null] := by
  decide

/-! ## Concrete runs -/

theorem ramp_renderChart :
    renderChart "line" (List.range 25) ramp = ([0, 12, 24], [100, 500, 900]) := by
  rw [renderChart_line_long _ _ (by rw [ramp_length]; decide), ramp_uniqueIndices]
  have h0 := ramp_getElem? 0 (by decide)
  have h12 := ramp_getElem? 12 (by decide)
  have h24 := ramp_getElem? 24 (by decide)
  simp only [List.map_cons, List.map_nil, List.getD_eq_getElem?_getD, h0, h12, h24,
    Option.getD_some]
  norm_num [List.range, List.range.loop]

/-- C2: for a line series of more than 20 values, `renderChart` hands the chart the
labels and values at the ascending, duplicate-free list of the indices `iMin`, `iMax`
and `iAvg`, where `iMin` is the first index holding the minimum, `iMax` the first
index holding the maximum, and `iAvg` the first index whose value is at the smallest
absolute distance to the mean; the 25-point ramp `100 + 100 * i / 3` gives the
indices `[0, 12, 24]`. -/
theorem renderChart_selects_min_max_avg {L : Type} [Inhabited L] :
    (∀ (labels : List L) (dataPoints : List ℚ), 20 < dataPoints.length →
      ∃ (vMin vMax : ℚ) (iMin iMax iAvg : Nat) (idx : List Nat),
        (∀ y ∈ dataPoints, vMin ≤ y) ∧ IsFirstIndexOf dataPoints vMin iMin ∧
        (∀ y ∈ dataPoints, y ≤ vMax) ∧ IsFirstIndexOf dataPoints vMax iMax ∧
        IsFirstClosest (dataPoints.sum / (dataPoints.length : ℚ)) dataPoints iAvg ∧
        idx.Sorted (fun a b => a < b) ∧
        (∀ i, i ∈ idx ↔ i = iMin ∨ i = iMax ∨ i = iAvg) ∧
        renderChart "line" labels dataPoints =
          (idx.map (fun i => labels.getD i default), idx.map (fun i => dataPoints.getD i 0))) ∧
    uniqueIndices ramp = [0, 12, 24] ∧
    renderChart "line" (List.range 25) ramp = ([0, 12, 24], [100, 500, 900]) :=
  ⟨fun labels dataPoints h => decimate_selects labels dataPoints h, ramp_uniqueIndices,
    ramp_renderChart⟩

/-- Instance of C2 on the ramp. -/
theorem renderChart_selects_min_max_avg_witness :
    20 < ramp.length ∧
    ∃ (vMin vMax : ℚ) (iMin iMax iAvg : Nat) (idx : List Nat),
      (∀ y ∈ ramp, vMin ≤ y) ∧ IsFirstIndexOf ramp vMin iMin ∧
      (∀ y ∈ ramp, y ≤ vMax) ∧ IsFirstIndexOf ramp vMax iMax ∧
      IsFirstClosest (ramp.sum / (ramp.length : ℚ)) ramp iAvg ∧
      idx.Sorted (fun a b => a < b) ∧
      (∀ i, i ∈ idx ↔ i = iMin ∨ i = iMax ∨ i = iAvg) ∧
      renderChart "line" (List.range 25) ramp =
        (idx.map (fun i => (List.range 25).getD i default), idx.map (fun i => ramp.getD i 0)) :=
  ⟨by simp [ramp], renderChart_selects_min_max_avg.1 (List.range 25) ramp (by simp [ramp])⟩

/-- Instance of C3 on the ramp. -/
theorem renderChart_decimated_shape_witness :
    20 < ramp.length ∧
    ∃ idx : List Nat,
      (1 ≤ idx.length ∧ idx.length ≤ 3) ∧
      idx.Sorted (fun a b => a < b) ∧
      (∀ i ∈ idx, i < ramp.length) ∧
      renderChart "line" (List.range 25) ramp =
        (idx.map (fun i => (List.range 25).getD i default), idx.map (fun i => ramp.getD i 0)) ∧
      (∃ m ∈ (renderChart "line" (List.range 25) ramp).2, m ∈ ramp ∧ ∀ y ∈ ramp, m ≤ y) ∧
      (∃ m ∈ (renderChart "line" (List.range 25) ramp).2, m ∈ ramp ∧ ∀ y ∈ ramp, y ≤ m) :=
  ⟨by simp [ramp], renderChart_decimated_shape (List.range 25) ramp (by simp [ramp])⟩

/-- Instance of C5 on the five-point series of the specification. -/
theorem renderChart_identity_witness :
    (([10, 50, 30, 10, 50] : List ℚ).length ≤ 20 ∨ "line" ≠ "line") ∧
    renderChart "line" [0, 1, 2, 3, 4] ([10, 50, 30, 10, 50] : List ℚ) =
      ([0, 1, 2, 3, 4], [10, 50, 30, 10, 50]) ∧
    renderChart "line" ([] : List Nat) [] = ([], []) :=
  ⟨Or.inl (by decide),
    renderChart_identity "line" [0, 1, 2, 3, 4] [10, 50, 30, 10, 50] (Or.inl (by decide))⟩


/-! ## Monthly roll-up: the properties of the specification -/

theorem numberOrZero_int (v : JSValue) (h : IsIntegerOrAbsent v) :
    ∃ k : ℤ, numberOrZero v = (k : ℚ) := by
  cases v with
  | null => exact ⟨0, by simp [numberOrZero]⟩
  | undefined => exact ⟨0, by simp [numberOrZero]⟩
  | num q => exact h
  | other a b => exact absurd h (by simp [IsIntegerOrAbsent])

theorem updateTableBucket_monthly (R : Rounding) (rawData : List Record) :
    updateTableBucket R "monthly" rawData = monthlyData R rawData := by
  unfold updateTableBucket
  rw [if_neg (by decide)]

theorem rowsOf_eq_filter (rawData : List Record) (p : JSString × JSString) :
    rowsOf rawData p =
      rawData.filter (fun r => decide (r.SKU = p.1 ∧ monthOf r = p.2)) := by
  unfold rowsOf
  apply List.filter_congr
  intro r _
  have : groupPair r = p ↔ r.SKU = p.1 ∧ monthOf r = p.2 := by
    constructor
    · intro e; rw [← e]; exact ⟨rfl, rfl⟩
    · intro e; exact Prod.ext e.1 e.2
  by_cases h : groupPair r = p
  · rw [decide_eq_true h, decide_eq_true (this.1 h)]
  · rw [decide_eq_false h, decide_eq_false (fun e => h (this.2 e))]

/-- On data with Dates of at least 7 characters and no inherited key, the monthly
path is the grouping the specification words: one record per distinct (SKU, month)
pair in order of first appearance, each metric summed in double arithmetic over the
records of the pair. -/
theorem monthly_groups_and_sums (R : Rounding) (rawData : List Record)
    (H1 : ∀ r ∈ rawData, 7 ≤ r.Date.length)
    (H2 : ∀ r ∈ rawData, groupKey r ∉ objectPrototypeProps) :
    updateTableBucket R "monthly" rawData = monthlySpec R rawData := by
  rw [updateTableBucket_monthly]
  exact monthlyData_eq_spec rawData H1 H2

/-- C1, amended: when every Date has at least 7 characters and no group key is a name
inherited from `Object.prototype`, no input record is dropped or counted under
another SKU: every record has an output record of its SKU and month, the output
records have pairwise distinct (SKU, month) pairs, each comes from an input record
and its `Constrained_Plan` is the sum, in double arithmetic and in input order, over
exactly the input records of its SKU and month. When moreover every
`Constrained_Plan` is an integer, `null` or missing and the magnitudes sum to at
most `2^53`, so that no addition rounds, the sum over the output records of a SKU
equals the sum over the input records of that SKU. -/
theorem monthly_mass_conserved (R : Rounding) (rawData : List Record)
    (H1 : ∀ r ∈ rawData, 7 ≤ r.Date.length)
    (H2 : ∀ r ∈ rawData, groupKey r ∉ objectPrototypeProps) :
    (∀ r ∈ rawData, ∃ o ∈ updateTableBucket R "monthly" rawData,
      o.SKU = r.SKU ∧ o.Date = monthOf r) ∧
    ((updateTableBucket R "monthly" rawData).map (fun o => (o.SKU, o.Date))).Nodup ∧
    (∀ o ∈ updateTableBucket R "monthly" rawData,
      (∃ r ∈ rawData, r.SKU = o.SKU ∧ monthOf r = o.Date) ∧
      o.Constrained_Plan = JSValue.num (sumField R (fun r => r.Constrained_Plan)
        (rawData.filter (fun r => decide (r.SKU = o.SKU ∧ monthOf r = o.Date))))) ∧
    ((∀ r ∈ rawData, IsIntegerOrAbsent r.Constrained_Plan) →
      (rawData.map (fun r => |numberOrZero r.Constrained_Plan|)).sum ≤ 2 ^ 53 →
      ∀ s, constrainedPlanOf s (updateTableBucket R "monthly" rawData) =
        constrainedPlanOf s rawData) := by
  rw [updateTableBucket_monthly, monthlyData_eq_spec rawData H1 H2]
  refine ⟨?_, ?_, ?_, ?_⟩
  · intro r hr
    refine ⟨(specGroup R (groupPair r) (rowsOf rawData (groupPair r))).toRecord, ?_, rfl, rfl⟩
    exact List.mem_map.2 ⟨groupPair r, (mem_setOf _ _).2 (List.mem_map_of_mem _ hr), rfl⟩
  · have e : (monthlySpec R rawData).map (fun o => (o.SKU, o.Date)) =
        setOf (rawData.map groupPair) := by
      unfold monthlySpec
      rw [List.map_map]
      conv_rhs => rw [← List.map_id (setOf (rawData.map groupPair))]
      apply List.map_congr_left
      intro p _
      rfl
    rw [e]
    exact nodup_setOf _
  · intro o ho
    simp only [monthlySpec, List.mem_map] at ho
    obtain ⟨p, hp, rfl⟩ := ho
    constructor
    · rw [mem_setOf, List.mem_map] at hp
      obtain ⟨r, hr, rfl⟩ := hp
      exact ⟨r, hr, rfl, rfl⟩
    · simp only [Group.toRecord, specGroup]
      rw [rowsOf_eq_filter]
  · intro hint hb s
    exact constrainedPlanOf_monthlySpec R rawData
      (fun r hr => numberOrZero_int _ (hint r hr)) hb s

theorem fl_ofNat (R : Rounding) (n : Nat) (h : n ≤ 2 ^ 53) : R.fl (n : ℚ) = (n : ℚ) := by
  have h2 : |(n : ℤ)| ≤ 2 ^ 53 := by
    rw [abs_of_nonneg (Int.natCast_nonneg n)]
    exact_mod_cast h
  have := R.fl_int (n : ℤ) h2
  simpa using this

/-- The two rows of the aggregation case of the specification, whatever the rounding. -/
theorem monthly_example (R : Rounding) :
    updateTableBucket R "monthly"
        [planRecord "A" "2024-01-07" (JSValue.num 10),
         planRecord "A" "2024-01-14" (JSValue.num 15)] =
      [{ SKU := "A".toList, Date := "2024-01".toList, Baseline_P50 := JSValue.num 0,
         Plan := JSValue.num 0, Constrained_Plan := JSValue.num 25, Upside := JSValue.num 0 }] := by
  have h0 : R.fl 0 = 0 := fl_zero R
  have h10 : R.fl 10 = 10 := by simpa using fl_ofNat R 10 (by norm_num)
  have h25 : R.fl 25 = 25 := by simpa using fl_ofNat R 25 (by norm_num)
  simp [updateTableBucket, monthlyData, aggregateRow, hasOwn, modifyOwn, groupKey, monthOf,
    planRecord, objectPrototypeProps, addRow, newGroup, Group.toRecord, numberOrZero, h0, h10]
  norm_num [h25]

/-- Instance of the amended C1, in double arithmetic, on the two rows of the
aggregation case. -/
theorem monthly_mass_conserved_witness :
    (∀ r ∈ [planRecord "A" "2024-01-07" (JSValue.num 10),
            planRecord "A" "2024-01-14" (JSValue.num 15)], 7 ≤ r.Date.length) ∧
    (∀ r ∈ [planRecord "A" "2024-01-07" (JSValue.num 10),
            planRecord "A" "2024-01-14" (JSValue.num 15)], groupKey r ∉ objectPrototypeProps) ∧
    (∀ r ∈ [planRecord "A" "2024-01-07" (JSValue.num 10),
            planRecord "A" "2024-01-14" (JSValue.num 15)],
      IsIntegerOrAbsent r.Constrained_Plan) ∧
    (([planRecord "A" "2024-01-07" (JSValue.num 10),
       planRecord "A" "2024-01-14" (JSValue.num 15)].map
        (fun r => |numberOrZero r.Constrained_Plan|)).sum ≤ 2 ^ 53) ∧
    constrainedPlanOf "A".toList
        (updateTableBucket Rounding.binary64 "monthly"
          [planRecord "A" "2024-01-07" (JSValue.num 10),
           planRecord "A" "2024-01-14" (JSValue.num 15)]) =
      constrainedPlanOf "A".toList
        [planRecord "A" "2024-01-07" (JSValue.num 10),
         planRecord "A" "2024-01-14" (JSValue.num 15)] := by
  have h1 : ∀ r ∈ [planRecord "A" "2024-01-07" (JSValue.num 10),
      planRecord "A" "2024-01-14" (JSValue.num 15)], 7 ≤ r.Date.length := by decide
  have h2 : ∀ r ∈ [planRecord "A" "2024-01-07" (JSValue.num 10),
      planRecord "A" "2024-01-14" (JSValue.num 15)], groupKey r ∉ objectPrototypeProps := by
    decide
  have h3 : ∀ r ∈ [planRecord "A" "2024-01-07" (JSValue.num 10),
      planRecord "A" "2024-01-14" (JSValue.num 15)], IsIntegerOrAbsent r.Constrained_Plan := by
    intro r hr
    simp only [List.mem_cons, List.mem_singleton, List.not_mem_nil, or_false] at hr
    rcases hr with rfl | rfl
    · exact ⟨10, by simp⟩
    · exact ⟨15, by simp⟩
  have h4 : ([planRecord "A" "2024-01-07" (JSValue.num 10),
      planRecord "A" "2024-01-14" (JSValue.num 15)].map
        (fun r => |numberOrZero r.Constrained_Plan|)).sum ≤ 2 ^ 53 := by
    simp [planRecord, numberOrZero]
    norm_num
  exact ⟨h1, h2, h3, h4, (monthly_mass_conserved Rounding.binary64 _ h1 h2).2.2.2 h3 h4 _⟩

/-- Instance of C10, in double arithmetic, on the two rows of the aggregation case. -/
theorem monthly_idempotent_witness :
    (∀ r ∈ [planRecord "A" "2024-01-07" (JSValue.num 10),
            planRecord "A" "2024-01-14" (JSValue.num 15)], 7 ≤ r.Date.length) ∧
    updateTableBucket Rounding.binary64 "monthly"
        (updateTableBucket Rounding.binary64 "monthly"
          [planRecord "A" "2024-01-07" (JSValue.num 10),
           planRecord "A" "2024-01-14" (JSValue.num 15)]) =
      updateTableBucket Rounding.binary64 "monthly"
        [planRecord "A" "2024-01-07" (JSValue.num 10),
         planRecord "A" "2024-01-14" (JSValue.num 15)] :=
  ⟨by decide, monthly_idempotent Rounding.binary64 _ (by decide)⟩

/-- C4 fails on this input, whatever the rounding: the key of the SKU `_` and the
month `proto__` is `__proto__`, which every object inherits; line 212 finds it truthy,
no group is stored, and the roll-up of one record with a 7-character Date is empty,
where the claim has one record for the pair. -/
theorem monthly_drops_inherited_key :
    ∀ R : Rounding,
      (planRecord "_" "proto__" (JSValue.num 10)).Date.length = 7 ∧
      groupKey (planRecord "_" "proto__" (JSValue.num 10)) = "__proto__".toList ∧
      updateTableBucket R "monthly" [planRecord "_" "proto__" (JSValue.num 10)] = [] ∧
      (monthlySpec R [planRecord "_" "proto__" (JSValue.num 10)]).length = 1 := by
  intro R
  refine ⟨by decide, by decide, ?_, ?_⟩
  · simp [updateTableBucket, monthlyData, aggregateRow, hasOwn, groupKey, monthOf,
      planRecord, objectPrototypeProps]
  · simp [monthlySpec, setOf]

/-- In double arithmetic `2^53 + 1` is `2^53`: the sum lies halfway between two
doubles and goes to the even one. -/
theorem binary64_two_pow_53_add_one : binary64 (9007199254740992 + 1) = 9007199254740992 := by
  have hpos : (0 : ℚ) < |(9007199254740992 + 1 : ℚ)| := by norm_num
  have h1 : 53 ≤ Int.log 2 |(9007199254740992 + 1 : ℚ)| :=
    (Int.zpow_le_iff_le_log (by norm_num) hpos).1 (by norm_num)
  have h2 : Int.log 2 |(9007199254740992 + 1 : ℚ)| < 54 :=
    (Int.lt_zpow_iff_log_lt (by norm_num) hpos).1 (by norm_num)
  have hlog : Int.log 2 |(9007199254740992 + 1 : ℚ)| = 53 := by omega
  have hfloor : ⌊((9007199254740992 + 1 : ℚ)) / 2 ^ ((53 : ℤ) - 52)⌋ = 4503599627370496 := by
    rw [Int.floor_eq_iff]
    constructor <;> norm_num
  unfold binary64
  rw [if_neg (by norm_num), hlog]
  unfold roundHalfEven
  rw [hfloor]
  norm_num

/-- The roll-up of `2^53` and 1 in January, 1 and 1 in February under a rounding
that takes `2^53 + 1` to `2^53`, as doubles do. -/
theorem monthly_rounded_example (R : Rounding)
    (hB : R.fl 9007199254740993 = 9007199254740992) :
    constrainedPlanOf "A".toList
        (updateTableBucket R "monthly"
          [planRecord "A" "2024-01-07" (JSValue.num 9007199254740992),
           planRecord "A" "2024-01-14" (JSValue.num 1),
           planRecord "A" "2024-02-04" (JSValue.num 1),
           planRecord "A" "2024-02-11" (JSValue.num 1)]) = 9007199254740994 := by
  have h0 : R.fl 0 = 0 := fl_zero R
  have h1 : R.fl 1 = 1 := by simpa using fl_ofNat R 1 (by norm_num)
  have h2 : R.fl 2 = 2 := by simpa using fl_ofNat R 2 (by norm_num)
  have hA : R.fl 9007199254740992 = 9007199254740992 := by
    simpa using fl_ofNat R 9007199254740992 (by norm_num)
  simp [updateTableBucket, monthlyData, aggregateRow, hasOwn, modifyOwn, groupKey, monthOf,
    planRecord, objectPrototypeProps, addRow, newGroup, Group.toRecord, numberOrZero,
    constrainedPlanOf, h0, h1, hA]
  norm_num [h2, hB]

/-- C1, as stated, fails in two ways that are no slip of the code.
With the Dates `1_2024` and `2024` the rows of the SKUs `A` and `A_1` get the same key
`A_1_2024`, the second row is added to the group of the first, and the roll-up shows
3 for the SKU `A` whose rows sum to 1, whatever the rounding.
With well-formed Dates and double arithmetic, the SKU `A` with `2^53` and 1 in January
and 1 and 1 in February rolls up to `2^53` and 2, which sum to `2^53 + 2`, while its
rows sum to `2^53 + 3`. -/
theorem monthly_mass_moved_between_skus :
    (∀ R : Rounding,
      constrainedPlanOf "A".toList
          (updateTableBucket R "monthly"
            [planRecord "A" "1_2024" (JSValue.num 1),
             planRecord "A_1" "2024" (JSValue.num 2)]) = 3 ∧
      constrainedPlanOf "A".toList
          [planRecord "A" "1_2024" (JSValue.num 1),
           planRecord "A_1" "2024" (JSValue.num 2)] = 1) ∧
    constrainedPlanOf "A".toList
        (updateTableBucket Rounding.binary64 "monthly"
          [planRecord "A" "2024-01-07" (JSValue.num 9007199254740992),
           planRecord "A" "2024-01-14" (JSValue.num 1),
           planRecord "A" "2024-02-04" (JSValue.num 1),
           planRecord "A" "2024-02-11" (JSValue.num 1)]) = 9007199254740994 ∧
    constrainedPlanOf "A".toList
        [planRecord "A" "2024-01-07" (JSValue.num 9007199254740992),
         planRecord "A" "2024-01-14" (JSValue.num 1),
         planRecord "A" "2024-02-04" (JSValue.num 1),
         planRecord "A" "2024-02-11" (JSValue.num 1)] = 9007199254740995 := by
  refine ⟨?_, ?_, ?_⟩
  · intro R
    have h0 : R.fl 0 = 0 := fl_zero R
    have h1 : R.fl 1 = 1 := by simpa using fl_ofNat R 1 (by norm_num)
    have h3 : R.fl 3 = 3 := by simpa using fl_ofNat R 3 (by norm_num)
    constructor
    · simp [updateTableBucket, monthlyData, aggregateRow, hasOwn, modifyOwn, groupKey, monthOf,
        planRecord, objectPrototypeProps, addRow, newGroup, Group.toRecord, numberOrZero,
        constrainedPlanOf, h0, h1]
      norm_num [h3]
    · simp [planRecord, numberOrZero, constrainedPlanOf]
  · apply monthly_rounded_example
    have := binary64_two_pow_53_add_one
    norm_num at this
    exact this
  · simp [planRecord, numberOrZero, constrainedPlanOf]
    norm_num

/-- A value that is not a number but that `Number` turns into one is summed as that
number: `true` and 10 in one month give 11, whatever the rounding. -/
theorem monthly_counts_true_as_one (R : Rounding) :
    updateTableBucket R "monthly"
        [planRecord "A" "2024-01-07" (JSValue.other (some 1) none),
         planRecord "A" "2024-01-14" (JSValue.num 10)] =
      [{ SKU := "A".toList, Date := "2024-01".toList, Baseline_P50 := JSValue.num 0,
         Plan := JSValue.num 0, Constrained_Plan := JSValue.num 11, Upside := JSValue.num 0 }] := by
  have h0 : R.fl 0 = 0 := fl_zero R
  have h1 : R.fl 1 = 1 := by simpa using fl_ofNat R 1 (by norm_num)
  have h11 : R.fl 11 = 11 := by simpa using fl_ofNat R 11 (by norm_num)
  simp [updateTableBucket, monthlyData, aggregateRow, hasOwn, modifyOwn, groupKey, monthOf,
    planRecord, objectPrototypeProps, addRow, newGroup, Group.toRecord, numberOrZero, h0, h1]
  norm_num [h11]

theorem toFixed0_natCast (n : Nat) (h : (n : ℚ) < (10 : ℚ) ^ 21) :
    toFixed0 (n : ℚ) = CellText.text (Nat.toDigits 10 n) := by
  have hnn : (0 : ℚ) ≤ (n : ℚ) := Nat.cast_nonneg n
  have habs : |(n : ℚ)| = (n : ℚ) := abs_of_nonneg hnn
  unfold toFixed0
  rw [habs, if_neg (not_le.2 h), if_neg (not_lt.2 hnn), List.nil_append]
  have hfl : ⌊(n : ℚ) + 1 / 2⌋ = (n : ℤ) := by
    rw [Int.floor_eq_iff]
    constructor
    · push_cast; linarith
    · push_cast; linarith
  rw [hfl, Int.toNat_natCast]

/-- C6 fails on this input: `toString` is inherited by `skuGroups`, line 140 finds
it truthy, no group is created, and the table of two records with two distinct
SKUs has the rows of the SKU `A` only. -/
theorem renderTable_drops_inherited_sku :
    renderTable [planRecord "A" "2024-01-07" JSValue.null,
                 planRecord "toString" "2024-01-14" JSValue.null] =
      Rendered.table ["2024-01-07".toList, "2024-01-14".toList]
        [ { sku := "A".toList, label := "Baseline".toList,
            cells := [placeholder, placeholder] },
          { sku := "A".toList, label := "Constrained Plan".toList,
            cells := [placeholder, placeholder] },
          { sku := "A".toList, label := "Upside".toList,
            cells := [placeholder, placeholder] } ] := by
  decide

/-- C7 fails on this input: the row of the SKU `__proto__` is written into
`Object.prototype` under its Date, the inner object of the SKU `A` inherits it, and
the cell of `A` under `2024-01-07` shows `10` although no record has that SKU and
Date. -/
theorem renderTable_cell_from_prototype :
    renderTable [planRecord "__proto__" "2024-01-07" (JSValue.num 10),
                 planRecord "A" "2024-01-14" (JSValue.num 20)] =
      Rendered.table ["2024-01-07".toList, "2024-01-14".toList]
        [ { sku := "A".toList, label := "Baseline".toList,
            cells := [placeholder, placeholder] },
          { sku := "A".toList, label := "Constrained Plan".toList,
            cells := [CellText.text "10".toList, CellText.text "20".toList] },
          { sku := "A".toList, label := "Upside".toList,
            cells := [placeholder, placeholder] } ] ∧
    lastRecord [planRecord "__proto__" "2024-01-07" (JSValue.num 10),
                planRecord "A" "2024-01-14" (JSValue.num 20)]
      "A".toList "2024-01-07".toList = none := by
  have h10 : toFixed0 10 = CellText.text "10".toList := by
    have := toFixed0_natCast 10 (by norm_num)
    simpa using this
  have h20 : toFixed0 20 = CellText.text "20".toList := by
    have := toFixed0_natCast 20 (by norm_num)
    simpa using this
  constructor
  · simp [renderTable, buildGroups, groupRow, PivotState.init, hasOwn, modifyOwn, setOwn,
      getOwn, objectPrototypeProps, recordFields, planRecord, allDates, sortStrings, setOf,
      strLe, skuRows, metrics, readDate, cellText, Metric.key, Metric.label, h10, h20]
  · decide

/-- C8: whatever `toLowerCase` does, the list `filterTable` passes on is the sublist,
in the original order, of the records whose lower-cased SKU holds the lower-cased
filter as a contiguous run anywhere; the empty filter (lowered to the empty string)
keeps every record; and the filter `sku_00` over the SKUs `SKU_001`, `SKU_002`,
`OTHER` keeps exactly the first two records. -/
theorem filterTable_keeps_matching_rows :
    (∀ (toLowerCase : JSString → JSString) (filterValue : JSString) (rawData : List Record),
      filterTable toLowerCase filterValue rawData =
        rawData.filter
          (fun row => decide (toLowerCase filterValue <:+: toLowerCase row.SKU))) ∧
    (∀ (toLowerCase : JSString → JSString) (rawData : List Record),
      toLowerCase [] = [] → filterTable toLowerCase [] rawData = rawData) ∧
    filterTable asciiLower "sku_00".toList
        [planRecord "SKU_001" "2024-01-07" JSValue.null,
         planRecord "SKU_002" "2024-01-07" JSValue.null,
         planRecord "OTHER" "2024-01-07" JSValue.null] =
      [planRecord "SKU_001" "2024-01-07" JSValue.null,
       planRecord "SKU_002" "2024-01-07" JSValue.null] :=
  ⟨filterTable_eq_filter, filterTable_empty, filterTable_example⟩

/-- Instance of C8 with the empty filter and the ASCII lowering. -/
theorem filterTable_keeps_matching_rows_witness :
    asciiLower [] = [] ∧
    filterTable asciiLower []
        [planRecord "SKU_001" "2024-01-07" JSValue.null,
         planRecord "OTHER" "2024-01-07" JSValue.null] =
      [planRecord "SKU_001" "2024-01-07" JSValue.null,
       planRecord "OTHER" "2024-01-07" JSValue.null] :=
  ⟨rfl, filterTable_keeps_matching_rows.2.1 asciiLower _ rfl⟩


end AgenticDemandPlanning
